import Mathlib

/-!
# Verification of the copy-type editor extension

Shallow embedding of the two extension implementations in `src/extension.ts`
(a rich variant with a file-version cache and a simpler variant) and of the
hover-caching variant, together with proofs about the claims of the
specification.

Conventions:
* JavaScript `Map<string, T>` is modelled as an association list
  `List (String × T)` with `Map.get` / `Map.set` semantics (`mget` / `mset`).
* JavaScript truthiness tests on strings (`if (!content)`) are modelled
  explicitly: both "absent" and the empty string are falsy.
* Opaque engine objects (`LanguageService`, `Program`, `TypeChecker`) are
  modelled by a generation counter that is bumped whenever the source
  constructs fresh instances.
-/

/-! ## Association-list model of JavaScript `Map` -/

/-- `Map.get`: value stored under `k`, if any. -/
def mget {α : Type} : List (String × α) → String → Option α
  | [], _ => none
  | (k', v) :: rest, k => if k' = k then some v else mget rest k

/-- `Map.set`: replace the entry for `k`, or append a fresh one. -/
def mset {α : Type} : List (String × α) → String → α → List (String × α)
  | [], k, v => [(k, v)]
  | (k', v') :: rest, k, v =>
    if k' = k then (k, v) :: rest else (k', v') :: mset rest k v

/-! ## Analysis Session state (rich variant, `src/extension.ts` lines 6-16)

Module-level mutable state of the rich variant:
`languageService`/`program`/`typeChecker`/`serviceHost` (opaque, modelled by
`serviceGen`), `fileCache`, `fileVersions`, `isServiceInitialized`,
`currentWorkspaceRoot`. -/

structure ServiceState where
  /-- Generation counter for the opaque engine objects; a bump models the
  source creating a fresh `LanguageService`, `Program` and `TypeChecker`. -/
  serviceGen : Nat
  fileCache : List (String × String)
  fileVersions : List (String × Nat)
  isServiceInitialized : Bool
  currentWorkspaceRoot : Option String
deriving Repr, DecidableEq

/-- `initializeTypeScriptService(rootPath)` (lines 206-279): reads the
configuration, enumerates files and creates a fresh language service, program
and type checker.  It assigns only the engine handles; it never touches
`fileCache` or `fileVersions`. -/
def initTypeScriptService (st : ServiceState) : ServiceState :=
  { st with serviceGen := st.serviceGen + 1 }

/-- The re-initialization guard of `getVariableType` (lines 96-105):
`if (!isServiceInitialized || currentWorkspaceRoot !== rootPath) {
   await initializeTypeScriptService(rootPath);
   currentWorkspaceRoot = rootPath; isServiceInitialized = true; }` -/
def ensureServiceForRoot (rootPath : String) (st : ServiceState) : ServiceState :=
  if ¬ st.isServiceInitialized ∨ st.currentWorkspaceRoot ≠ some rootPath then
    let st' := initTypeScriptService st
    { st' with currentWorkspaceRoot := some rootPath, isServiceInitialized := true }
  else st

/-- `deactivate()` (lines 370-379): the only place that clears the caches. -/
def deactivate (st : ServiceState) : ServiceState :=
  { serviceGen := st.serviceGen, fileCache := [], fileVersions := [],
    isServiceInitialized := false, currentWorkspaceRoot := none }

/-- JavaScript `x || 1` on `fileVersions.get(fileName)`: `undefined` and `0`
are falsy (the table never actually stores `0`, but the embedding is faithful
to the expression). -/
def jsOrOne : Option Nat → Nat
  | none => 1
  | some v => if v = 0 then 1 else v

/-- `getScriptVersion` of the rich variant host (lines 244-247). -/
def getScriptVersionRich (st : ServiceState) (fileName : String) : String :=
  toString (jsOrOne (mget st.fileVersions fileName))

/-- The text-update step of `getVariableType` (lines 116-124): compare the
caller-supplied current document text with the cached text; on a difference
overwrite the cache and bump the version. -/
def updateDocumentCache (st : ServiceState) (fileName text : String) : ServiceState :=
  if mget st.fileCache fileName ≠ some text then
    { st with
      fileCache := mset st.fileCache fileName text,
      fileVersions :=
        mset st.fileVersions fileName (jsOrOne (mget st.fileVersions fileName) + 1) }
  else st

/-- A concrete session state produced by analysing one file under root
`/rootA`: the service is warm and `/rootA/a.ts` is cached at version 2. -/
def stateAfterRootA : ServiceState :=
  { serviceGen := 1,
    fileCache := [("/rootA/a.ts", "const x = 1")],
    fileVersions := [("/rootA/a.ts", 2)],
    isServiceInitialized := true,
    currentWorkspaceRoot := some "/rootA" }

/-! ## Command handlers and their outcomes (claims about the command surface)

Each command invocation ends in exactly one `vscode.window.show*Message`
call; the embedding returns which one, together with the clipboard write
(if any). -/

/-- The single user-visible notification a command run ends with. -/
inductive Outcome where
  | errorNote (msg : String)
  | warningNote (msg : String)
  | infoNote (msg : String)
deriving Repr, DecidableEq

/-- The outcome is a warning notification. -/
def isWarningOutcome : Outcome → Prop
  | .warningNote _ => True
  | _ => False

/-- The outcome is an error notification. -/
def isErrorOutcome : Outcome → Prop
  | .errorNote _ => True
  | _ => False

/-- The editor-supplied inputs of a command run: the text of the current
selection and, when the selection is empty, the word under the cursor (if
any).  `selectionText = ""` models an empty selection. -/
structure EditorInput where
  selectionText : String
  wordAtCursor : Option String
deriving Repr, DecidableEq

/-- The `copy-type.copyTypeAtCursor` handler of the rich variant
(lines 22-74).  `attempt` is the awaited body around `getVariableType` and
the clipboard write: `Except.error` models a rejection caught by the outer
`try/catch`, `Except.ok none` models `getVariableType` returning `null`.
The second component is the clipboard write, `none` meaning no write. -/
def copyTypeAtCursorHandler (editor : Option EditorInput)
    (attempt : Except String (Option String)) : Outcome × Option String :=
  match editor with
  | none => (.errorNote "No active editor", none)
  | some ed =>
    -- let selectedText = document.getText(selection);
    -- if (!selectedText) { ... word at cursor ... }
    let selectedText :=
      if ed.selectionText ≠ "" then ed.selectionText
      else match ed.wordAtCursor with
        | some w => w
        | none => ""
    if selectedText = "" then
      (.warningNote "Please select a variable or place cursor on a variable", none)
    else
      match attempt with
      | .error _ => (.errorNote "Failed to get type information", none)
      | .ok (some typeInfo) =>
        (.infoNote ("Type copied: " ++ typeInfo), some typeInfo)
      | .ok none =>
        (.warningNote ("Unable to get type information for variable \"" ++
          selectedText ++ "\""), none)

/-- The `copy-type.copyVariableType` handler of the simple variant
(lines 397-437); identical control flow with different messages. -/
def copyVariableTypeHandler (editor : Option EditorInput)
    (attempt : Except String (Option String)) : Outcome × Option String :=
  match editor with
  | none => (.errorNote "没有活动的编辑器", none)
  | some ed =>
    let selectedText :=
      if ed.selectionText ≠ "" then ed.selectionText
      else match ed.wordAtCursor with
        | some w => w
        | none => ""
    if selectedText = "" then
      (.warningNote "请选择一个变量或将光标放在变量上", none)
    else
      match attempt with
      | .error _ => (.errorNote "获取类型信息失败", none)
      | .ok (some typeInfo) =>
        (.infoNote ("类型已复制: " ++ typeInfo), some typeInfo)
      | .ok none =>
        (.warningNote ("无法获取变量 \"" ++ selectedText ++ "\" 的类型信息"), none)

/-! ## Hover-caching variant (`src/unnamed/part_000`) -/

/-- A `vscode.Position`. -/
structure VPosition where
  line : Nat
  character : Nat
deriving Repr, DecidableEq

/-- The re-resolution path of `copyTypeCommand` (lines 63-70 of the
hover-caching variant): resolve at the cursor, write the clipboard on
success, warn otherwise.  The `Bool` records that a fresh resolution
happened. -/
def copyFresh (pos : VPosition) (getTypeAtPosition : VPosition → Option String) :
    Outcome × Option String × Bool :=
  match getTypeAtPosition pos with
  | some typeInfo =>
    (.infoNote ("Type copied to clipboard: " ++ typeInfo), some typeInfo, true)
  | none => (.warningNote "No type information found at cursor position", none, true)

/-- `copy-type.copyTypeAtCursor` of the hover-caching variant (lines 43-71).
`currentTypeInfo`/`currentPosition` are the module-level cache written by the
hover provider.  The guard mirrors
`if (currentTypeInfo && currentPosition && currentPosition.line === position.line
    && Math.abs(currentPosition.character - position.character) < 10)`;
note that an empty cached string is falsy in JavaScript. -/
def copyTypeCommandHover (editor : Option VPosition)
    (currentTypeInfo : Option String) (currentPosition : Option VPosition)
    (getTypeAtPosition : VPosition → Option String) :
    Outcome × Option String × Bool :=
  match editor with
  | none => (.errorNote "No active editor found", none, false)
  | some pos =>
    match currentTypeInfo, currentPosition with
    | some info, some cpos =>
      if info ≠ "" ∧ cpos.line = pos.line ∧
          ((cpos.character : Int) - (pos.character : Int)).natAbs < 10 then
        (.infoNote ("Type copied to clipboard: " ++ info), some info, false)
      else copyFresh pos getTypeAtPosition
    | _, _ => copyFresh pos getTypeAtPosition

/-! ## Simple-variant language-service host (lines 534-557, 564-565) -/

/-- `getScriptVersion` of the simple variant (line 536): the constant
string `"1"`. -/
def getScriptVersionSimple (_fileName : String) : String := "1"

/-- `getScriptSnapshot` of the simple variant (lines 537-549).  `disk`
models the filesystem: `none` means `fs.existsSync` is false, `some t` means
the file exists and reads as `t`.  Returns the snapshot text handed to the
engine and the updated cache.  The cached text is reused only when it is
truthy (`if (!content)` re-reads on `undefined` and on `""`). -/
def getScriptSnapshotSimple (disk : String → Option String)
    (cache : List (String × String)) (fileName : String) :
    Option String × List (String × String) :=
  match disk fileName with
  | none => (none, cache)
  | some diskText =>
    match mget cache fileName with
    | some content =>
      if content = "" then (some diskText, mset cache fileName diskText)
      else (some content, cache)
    | none => (some diskText, mset cache fileName diskText)

/-- The final statement of the simple variant's
`initializeTypeScriptService` (line 565): the active document's text is
written into the file cache.  This is the only write to the cache outside
`getScriptSnapshot`. -/
def cacheActiveDocument (cache : List (String × String))
    (fileName text : String) : List (String × String) :=
  mset cache fileName text

/-- An engine-driven interaction with the simple variant's session state:
either a command invocation on an active document (which runs
`initializeTypeScriptService` and caches the active text) or a
`getScriptSnapshot` callback for some file against the then-current disk. -/
inductive SessionEvent where
  | query (activeFile activeText : String)
  | snapshot (fileName : String) (disk : String → Option String)

/-- Fold a list of session events over the cache, logging every snapshot
observation as `(fileName, returned text)`. -/
def runEvents : List SessionEvent → List (String × String) →
    List (String × String) × List (String × Option String)
  | [], cache => (cache, [])
  | .query f t :: rest, cache => runEvents rest (cacheActiveDocument cache f t)
  | .snapshot f disk :: rest, cache =>
    let r := getScriptSnapshotSimple disk cache f
    let out := runEvents rest r.2
    (out.1, (f, r.1) :: out.2)

/-! ## Rich-variant fallback type renderer (`getVariableType`, lines 150-198)

The engine collaborators are abstracted exactly at the interface the source
uses: `getTypeAtLocation`, `typeToString` (with the fixed format-flag set)
and the parent link.  `TypeH` is the opaque type handle; the source compares
handles with `!==`, hence the `DecidableEq`. -/

/-- Lines 150-198 of `getVariableType`: query the node's type, render it
(the `type.flags & ts.TypeFlags.Object` conditional executes the same call in
both branches and is collapsed here), and on an `"any"` render re-query the
parent once, preferring the parent's render only when the parent's handle is
present, differs from the child's handle, and renders to something other
than `"any"`. -/
def renderTypeWithFallback {Node TypeH : Type} [DecidableEq TypeH]
    (getTypeAtLocation : Node → Option TypeH)
    (typeToString : TypeH → Node → String)
    (parentOf : Node → Option Node)
    (node : Node) : Option String :=
  match getTypeAtLocation node with
  | none => none
  | some ty =>
    let typeString := typeToString ty node
    if typeString = "any" then
      match parentOf node with
      | some p =>
        match getTypeAtLocation p with
        | some parentType =>
          if parentType ≠ ty then
            let parentTypeString := typeToString parentType p
            if parentTypeString ≠ "any" then some parentTypeString
            else some typeString
          else some typeString
        | none => some typeString
      | none => some typeString
    else some typeString

/-- Concrete collaborators for the fallback counterexample: every node has
the same type handle `0`. -/
def ctGetType : Nat → Option Nat := fun _ => some 0

/-- Rendering the (unique) type handle at node `1` (the parent) yields
`"number"`, at any other node `"any"`. -/
def ctTypeToString : Nat → Nat → String := fun _ n => if n = 1 then "number" else "any"

/-- Node `0` has parent `1`; nothing else has a parent. -/
def ctParentOf : Nat → Option Nat := fun n => if n = 0 then some 1 else none

/-- Concrete collaborators for the fallback witness: node `0` has type
handle `0` rendering `"any"`, its parent `1` has the distinct handle `1`
rendering `"number"`. -/
def cwGetType : Nat → Option Nat := fun n => if n = 0 then some 0 else some 1

/-- Handle `0` renders `"any"`, handle `1` renders `"number"`. -/
def cwTypeToString : Nat → Nat → String := fun h _ => if h = 0 then "any" else "number"

/-! ## Bounded directory walk (`getAllTsFiles`, rich variant lines 297-341) -/

/-- A directory-tree entry as seen through `fs.readdirSync(dir,
{ withFileTypes: true })`.  `unreadableDir` is a directory whose
`readdirSync` call throws (permission error, race). -/
inductive FSEntry where
  | file (name : String)
  | dir (name : String) (entries : List FSEntry)
  | unreadableDir (name : String)
deriving Repr

/-- `entry.name`. -/
def entryName : FSEntry → String
  | .file n => n
  | .dir n _ => n
  | .unreadableDir n => n

/-- `entry.isDirectory()`. -/
def isDirectoryEntry : FSEntry → Bool
  | .file _ => false
  | .dir _ _ => true
  | .unreadableDir _ => true

/-- Index of the last `'.'` in a character list (`i` is the index of the
head). -/
def lastDotFrom : List Char → Nat → Option Nat
  | [], _ => none
  | c :: cs, i =>
    match lastDotFrom cs (i + 1) with
    | some j => some j
    | none => if c = '.' then some i else none

/-- `path.extname` on a basename: the suffix from the last `'.'`, unless
that dot is the leading character (`.bashrc` has no extension). -/
def extname (name : String) : String :=
  match lastDotFrom name.data 0 with
  | some i => if i = 0 then "" else String.mk (name.data.drop i)
  | none => ""

/-- JavaScript `s.startsWith(p)`, modelled character-wise (extensionally
the library `String.startsWith`, but kernel-reducible). -/
def strStartsWith (s p : String) : Bool := decide (s.data.take p.data.length = p.data)

/-- The `skipDirs` list of `getAllTsFiles` (lines 319-323). -/
def skipDirs : List String :=
  ["node_modules", ".git", "dist", "build", ".vscode",
   ".next", ".nuxt", "coverage", ".nyc_output",
   "tmp", "temp", ".cache", ".parcel-cache"]

/-- The file-extension allow-list of the rich variant (line 329). -/
def allowedExts : List String := [".ts", ".tsx", ".js", ".jsx"]

/-- `maxDepth` (line 299). -/
def maxDepth : Nat := 10

/-- `maxFiles` (line 300). -/
def maxFiles : Nat := 1000

mutual
/-- `searchFiles(dir, depth)` (lines 302-337): bail out past the depth or
count bound, otherwise read the directory and iterate its entries.  `path`
is the directory's full path, `d` its tree.  Beyond the source's `files`
accumulator, the walk records each directory it attempts to read as a ghost
trace of `(entry name, depth)` pairs; an unreadable directory is recorded
(the read was attempted) and then skipped silently by the `catch`. -/
def searchFiles (path : String) (depth : Nat) (d : FSEntry)
    (files : List String) (visited : List (String × Nat)) :
    List String × List (String × Nat) :=
  if depth > maxDepth ∨ files.length > maxFiles then (files, visited)
  else
    match d with
    | .file _ => (files, visited)
    | .unreadableDir n => (files, visited ++ [(n, depth)])
    | .dir n entries => walkEntries path depth entries files (visited ++ [(n, depth)])

/-- The `for (const entry of entries)` loop of `searchFiles` (lines
310-333): break past the count bound; recurse into non-skipped,
non-hidden directories; collect files with an allowed extension. -/
def walkEntries (dirPath : String) (depth : Nat) :
    List FSEntry → List String → List (String × Nat) →
    List String × List (String × Nat)
  | [], files, visited => (files, visited)
  | e :: rest, files, visited =>
    if files.length > maxFiles then (files, visited)
    else if isDirectoryEntry e then
      if ¬ skipDirs.contains (entryName e) ∧ ¬ strStartsWith (entryName e) "." then
        let r := searchFiles (dirPath ++ "/" ++ entryName e) (depth + 1) e files visited
        walkEntries dirPath depth rest r.1 r.2
      else walkEntries dirPath depth rest files visited
    else
      if allowedExts.contains (extname (entryName e)) then
        walkEntries dirPath depth rest (files ++ [dirPath ++ "/" ++ entryName e]) visited
      else walkEntries dirPath depth rest files visited
end

/-- `getAllTsFiles(rootPath)` (lines 297-341): `searchFiles(rootPath)` with
depth 0 and empty accumulators; `root` is the tree of the root directory. -/
def getAllTsFiles (rootPath : String) (root : FSEntry) :
    List String × List (String × Nat) :=
  searchFiles rootPath 0 root [] []

/-! ## Syntax-node resolution (lines 344-368 and 616-625)

A parsed file is modelled by the tree skeleton the two resolvers actually
consult: each node carries `getStart(sourceFile)`, `getEnd()` and the
children enumerated by `ts.forEachChild` (in document order). -/

/-- A TypeScript syntax node, reduced to the data the resolvers read. -/
inductive TsNode where
  | node (s e : Nat) (children : List TsNode)
deriving Repr

/-- `node.getStart(sourceFile)`. -/
def nodeStart : TsNode → Nat
  | .node s _ _ => s

/-- `node.getEnd()`. -/
def nodeEnd : TsNode → Nat
  | .node _ e _ => e

/-- The children visited by `ts.forEachChild`. -/
def nodeChildren : TsNode → List TsNode
  | .node _ _ cs => cs

/-- `position >= start && position < end`, the containment test both
resolvers use. -/
def containsPos (n : TsNode) (pos : Nat) : Prop :=
  nodeStart n ≤ pos ∧ pos < nodeEnd n

instance (n : TsNode) (pos : Nat) : Decidable (containsPos n pos) := by
  unfold containsPos; infer_instance

mutual
/-- The `visit` closure of `findMostSpecificNodeAtPosition` (lines 349-364).
The running state `(result, bestStart, bestEnd)` starts as
`(null, -1, Infinity)`, represented by `none`; since every `start` is a
natural number, `start > -1` always holds and `end < Infinity` is never
needed, so an empty state is always overwritten, exactly as in the source. -/
def visit (pos : Nat) (n : TsNode) (st : Option (TsNode × Nat × Nat)) :
    Option (TsNode × Nat × Nat) :=
  match n with
  | .node s e cs =>
    if s ≤ pos ∧ pos < e then
      let st' :=
        match st with
        | none => some (.node s e cs, s, e)
        | some (r, bestStart, bestEnd) =>
          if s > bestStart ∨ (s = bestStart ∧ e < bestEnd) then
            some (.node s e cs, s, e)
          else some (r, bestStart, bestEnd)
      visitChildren pos cs st'
    else st

/-- `ts.forEachChild(node, visit)` with the state threaded through. -/
def visitChildren (pos : Nat) :
    List TsNode → Option (TsNode × Nat × Nat) → Option (TsNode × Nat × Nat)
  | [], st => st
  | c :: cs, st => visitChildren pos cs (visit pos c st)
end

/-- `findMostSpecificNodeAtPosition(sourceFile, position)` (lines 344-368). -/
def findMostSpecificNodeAtPosition (root : TsNode) (pos : Nat) : Option TsNode :=
  (visit pos root none).map (fun t => t.1)

mutual
/-- The `find` closure of `findNodeAtPosition` (lines 617-622):
`return ts.forEachChild(node, find) || node` inside the containment test. -/
def findNodeAtPosition (pos : Nat) (n : TsNode) : Option TsNode :=
  match n with
  | .node s e cs =>
    if s ≤ pos ∧ pos < e then
      match findFirstInChildren pos cs with
      | some m => some m
      | none => some (.node s e cs)
    else none

/-- `ts.forEachChild(node, find)`: the first child on which `find` returns
a node. -/
def findFirstInChildren (pos : Nat) : List TsNode → Option TsNode
  | [] => none
  | c :: cs =>
    match findNodeAtPosition pos c with
    | some m => some m
    | none => findFirstInChildren pos cs
end

mutual
/-- All nodes of a tree (the node itself first, then the subtrees in
order). -/
def subnodes : TsNode → List TsNode
  | .node s e cs => .node s e cs :: subnodesList cs

/-- All nodes of a forest. -/
def subnodesList : List TsNode → List TsNode
  | [] => []
  | c :: cs => subnodes c ++ subnodesList cs
end

/-- Consecutive siblings are disjoint and in document order:
`end aᵢ ≤ start aᵢ₊₁`. -/
def siblingsOrdered : List TsNode → Bool
  | [] => true
  | [_] => true
  | a :: b :: rest => (nodeEnd a ≤ nodeStart b : Bool) && siblingsOrdered (b :: rest)

/-- Each child's range lies inside `[s, e)` of the parent. -/
def childrenWithin (s e : Nat) : List TsNode → Bool
  | [] => true
  | c :: cs => (s ≤ nodeStart c && nodeEnd c ≤ e) && childrenWithin s e cs

mutual
/-- Well-formedness of a TypeScript syntax tree as produced by the parser:
ranges are ordered (`start ≤ end`), children lie within their parent, and
siblings are disjoint and ordered.  Real `ts.SourceFile` trees satisfy
this. -/
def wfNode : TsNode → Bool
  | .node s e cs =>
    (s ≤ e : Bool) && childrenWithin s e cs && siblingsOrdered cs && wfForest cs

/-- `wfNode` on every tree of a forest. -/
def wfForest : List TsNode → Bool
  | [] => true
  | c :: cs => wfNode c && wfForest cs
end

/-- State-shape invariant for `visit`: any recorded best is a node of the
set `S` containing `pos`, and the recorded pair is that node's range. -/
def goodState (pos : Nat) (S : TsNode → Prop) (st : Option (TsNode × Nat × Nat)) : Prop :=
  ∀ r bs be, st = some (r, bs, be) →
    bs = nodeStart r ∧ be = nodeEnd r ∧ containsPos r pos ∧ S r

/-- The running best of `visit` only ever improves, in the update order of
the source (larger start wins, ties broken by smaller end). -/
def stateLe (st st' : Option (TsNode × Nat × Nat)) : Prop :=
  ∀ r bs be, st = some (r, bs, be) →
    ∃ r' bs' be', st' = some (r', bs', be') ∧ (bs < bs' ∨ (bs = bs' ∧ be' ≤ be))

/-- The state records a best at least as specific as the range `(ms, me)`. -/
def stateDom (st : Option (TsNode × Nat × Nat)) (ms me : Nat) : Prop :=
  ∃ r bs be, st = some (r, bs, be) ∧ (ms < bs ∨ (ms = bs ∧ be ≤ me))

/-! ## Concrete instances used by counterexamples and witnesses -/

/-- The pristine module state (all caches empty, nothing initialized). -/
def emptyServiceState : ServiceState :=
  { serviceGen := 0, fileCache := [], fileVersions := [],
    isServiceInitialized := false, currentWorkspaceRoot := none }

/-- A resolver that never finds a type. -/
def hoverResolveNone : VPosition → Option String := fun _ => none

/-- A resolver that always finds the string `"fresh"`. -/
def hoverResolveFresh : VPosition → Option String := fun _ => some "fresh"

/-- A disk on which `b.ts` exists and is empty. -/
def diskV1 : String → Option String := fun f => if f = "b.ts" then some "" else none

/-- The same disk after `b.ts` changed to `"X"`. -/
def diskV2 : String → Option String := fun f => if f = "b.ts" then some "X" else none

/-- Session events of the C10 witness: a snapshot of `b.ts` after the disk
changed, then a command with `a.ts` as the active document; `b.ts` is never
active. -/
def stableEvents : List SessionEvent :=
  [.snapshot "b.ts" diskV2, .query "a.ts" "const y = 2"]

/-- The parsed file of the resolver counterexample: the root node and its
single (leaf) child share the range `[0, 2)`, as happens e.g. for a source
file whose whole text is one expression statement without a trailing
semicolon. -/
def equalRangeTree : TsNode := .node 0 2 [.node 0 2 []]

/-- The leaf of `equalRangeTree`. -/
def equalRangeLeaf : TsNode := .node 0 2 []

/-- A small well-formed parsed file used by witnesses:
root `[0, 10)` with children `[0, 3)` and `[4, 6)`, the latter with leaf
child `[5, 6)`. -/
def sampleTree : TsNode :=
  .node 0 10 [.node 0 3 [], .node 4 6 [.node 5 6 []]]

/-- The innermost leaf of `sampleTree`. -/
def sampleLeaf : TsNode := .node 5 6 []

/-- A flat root directory holding 2000 TypeScript files. -/
def flatRoot2000 : FSEntry := .dir "root" (List.replicate 2000 (.file "a.ts"))

/-- A directory tree with a skipped directory, a hidden directory, an
unreadable directory and a deep chain, used by the walk witness. -/
def walkSampleRoot : FSEntry :=
  .dir "proj"
    [.file "index.ts",
     .dir "node_modules" [.file "dep.ts"],
     .dir ".git" [.file "x.ts"],
     .unreadableDir "secrets",
     .dir "src" [.file "main.tsx", .file "notes.md"]]

/-! # Theorems -/

/-! ## Association-list lemmas -/

theorem mget_mset_self {α : Type} (m : List (String × α)) (k : String) (v : α) :
    mget (mset m k v) k = some v := by
  induction m with
  | nil => simp [mget, mset]
  | cons p rest ih =>
    obtain ⟨k', v'⟩ := p
    by_cases h : k' = k <;> simp [mget, mset, h, ih]

theorem mget_mset_other {α : Type} (m : List (String × α)) (k k' : String) (v : α)
    (hne : k' ≠ k) : mget (mset m k v) k' = mget m k' := by
  induction m with
  | nil => simp [mget, mset, Ne.symm hne]
  | cons p rest ih =>
    obtain ⟨k₀, v₀⟩ := p
    by_cases h : k₀ = k
    · subst h
      simp [mget, mset, Ne.symm hne]
    · simp only [mset, if_neg h, mget]
      by_cases h' : k₀ = k' <;> simp [h', ih]

/-! ## C1: re-initialization on a root switch -/

/-- C1, counterexample: switching the active root from `/rootA` to `/rootB`
re-initializes the service (the engine handles are rebuilt and the new root
recorded), yet the `FileRecord` data of the previous root — both the cached
text and the version entry of `/rootA/a.ts` — survives, contradicting
"leaving no cache entry from the previous root". -/
theorem reinit_retains_old_root_cache_entry :
    (ensureServiceForRoot "/rootB" stateAfterRootA).currentWorkspaceRoot = some "/rootB" ∧
    (ensureServiceForRoot "/rootB" stateAfterRootA).serviceGen ≠ stateAfterRootA.serviceGen ∧
    mget (ensureServiceForRoot "/rootB" stateAfterRootA).fileCache "/rootA/a.ts" =
      some "const x = 1" ∧
    mget (ensureServiceForRoot "/rootB" stateAfterRootA).fileVersions "/rootA/a.ts" =
      some 2 := by
  decide

/-- C1 (amended): when the requested workspace root differs from the active
one (or the service is uninitialized), re-initialization rebuilds the engine
handles (language service, program, type checker) and records the new root,
but it retains the file-text cache and the version table unchanged; the
prior `FileRecord` entries are not discarded. -/
theorem reinit_rebuilds_service_but_keeps_file_tables
    (st : ServiceState) (rootPath : String)
    (h : ¬ st.isServiceInitialized ∨ st.currentWorkspaceRoot ≠ some rootPath) :
    (ensureServiceForRoot rootPath st).serviceGen = st.serviceGen + 1 ∧
    (ensureServiceForRoot rootPath st).fileCache = st.fileCache ∧
    (ensureServiceForRoot rootPath st).fileVersions = st.fileVersions ∧
    (ensureServiceForRoot rootPath st).isServiceInitialized = true ∧
    (ensureServiceForRoot rootPath st).currentWorkspaceRoot = some rootPath := by
  unfold ensureServiceForRoot initTypeScriptService
  split
  · exact ⟨rfl, rfl, rfl, rfl, rfl⟩
  · next h' => exact absurd h h'

/-- Witness for the amended C1 at a concrete root switch. -/
theorem reinit_rebuilds_service_but_keeps_file_tables_witness :
    (ensureServiceForRoot "/rootB" stateAfterRootA).fileCache = stateAfterRootA.fileCache ∧
    (ensureServiceForRoot "/rootB" stateAfterRootA).serviceGen =
      stateAfterRootA.serviceGen + 1 := by
  have h := reinit_rebuilds_service_but_keeps_file_tables stateAfterRootA "/rootB" (by decide)
  exact ⟨h.2.1, h.1⟩

/-! ## C3: text-update and version policy -/

/-- After a text-update step the cache holds exactly the supplied text. -/
theorem updateDocumentCache_mget_self (st : ServiceState) (f t : String) :
    mget (updateDocumentCache st f t).fileCache f = some t := by
  by_cases h : mget st.fileCache f ≠ some t
  · simp [updateDocumentCache, if_pos h, mget_mset_self]
  · push_neg at h
    simp [updateDocumentCache, h]

/-- A query whose text already equals the cached text is a complete no-op. -/
theorem updateDocumentCache_noop (st : ServiceState) (f t : String)
    (h : mget st.fileCache f = some t) : updateDocumentCache st f t = st := by
  simp [updateDocumentCache, h]

/-- C3: querying twice with identical text leaves the whole state — in
particular the version counter — unchanged between the two queries (the
second update is the identity), while a query whose text differs from the
cached text overwrites the cache and bumps the externally observed version
(`getScriptVersion`'s `fileVersions.get(fileName) || 1`) by exactly one. -/
theorem update_cache_version_policy (st : ServiceState) (f t : String) :
    updateDocumentCache (updateDocumentCache st f t) f t = updateDocumentCache st f t ∧
    (mget st.fileCache f ≠ some t →
      mget (updateDocumentCache st f t).fileCache f = some t ∧
      jsOrOne (mget (updateDocumentCache st f t).fileVersions f) =
        jsOrOne (mget st.fileVersions f) + 1) := by
  constructor
  · exact updateDocumentCache_noop _ f t (updateDocumentCache_mget_self st f t)
  · intro h
    refine ⟨updateDocumentCache_mget_self st f t, ?_⟩
    simp [updateDocumentCache, if_pos h, mget_mset_self, jsOrOne]

/-- Witness for C3: an initial query on a pristine state bumps the observed
version from 1 to 2 and stores the text. -/
theorem update_cache_version_policy_witness :
    mget (updateDocumentCache emptyServiceState "a.ts" "const x = 1").fileCache "a.ts" =
      some "const x = 1" ∧
    jsOrOne (mget (updateDocumentCache emptyServiceState "a.ts" "const x = 1").fileVersions
      "a.ts") = 2 := by
  have h := (update_cache_version_policy emptyServiceState "a.ts" "const x = 1").2 (by decide)
  exact ⟨h.1, h.2⟩

/-! ## C4: fallback-to-parent in the rich renderer -/

/-- C4, counterexample: the child node `0` renders to the marker `"any"`
and has a parent (node `1`) whose rendered type is `"number"` — different
from the child's result and not the marker — yet the code returns the
child's `"any"`, because the parent's type handle is the same object as the
child's and the `parentType !== type` guard blocks the replacement.  The
claim's "replaces if and only if different and not the marker" is therefore
false. -/
theorem fallback_same_type_handle_keeps_any :
    ctGetType 0 = some 0 ∧
    ctTypeToString 0 0 = "any" ∧
    ctParentOf 0 = some 1 ∧
    ctGetType 1 = some 0 ∧
    ctTypeToString 0 1 = "number" ∧
    ("number" : String) ≠ "any" ∧
    renderTypeWithFallback ctGetType ctTypeToString ctParentOf 0 = some "any" := by
  decide

/-- C4 (amended): the fallback re-query triggers if and only if the child's
rendered string equals `"any"` and the node has a parent; the parent's
rendered string replaces the child's if and only if the parent's type handle
is present, is a *different handle* from the child's, and renders to
something other than `"any"`; otherwise the child's string is returned
unchanged, and the fallback never recurses beyond one parent level. -/
theorem fallback_render_characterization {Node TypeH : Type} [DecidableEq TypeH]
    (gt : Node → Option TypeH) (render : TypeH → Node → String)
    (par : Node → Option Node) (n : Node) (ty : TypeH)
    (hty : gt n = some ty) :
    (render ty n ≠ "any" → renderTypeWithFallback gt render par n = some (render ty n)) ∧
    (render ty n = "any" → par n = none →
      renderTypeWithFallback gt render par n = some "any") ∧
    (∀ p, render ty n = "any" → par n = some p → gt p = none →
      renderTypeWithFallback gt render par n = some "any") ∧
    (∀ p pty, render ty n = "any" → par n = some p → gt p = some pty →
      renderTypeWithFallback gt render par n =
        if pty ≠ ty ∧ render pty p ≠ "any" then some (render pty p) else some "any") := by
  refine ⟨?_, ?_, ?_, ?_⟩
  · intro hne
    simp [renderTypeWithFallback, hty, hne]
  · intro hany hpar
    simp [renderTypeWithFallback, hty, hany, hpar]
  · intro p hany hpar hnone
    simp [renderTypeWithFallback, hty, hany, hpar, hnone]
  · intro p pty hany hpar hpty
    by_cases hne : pty = ty
    · simp [renderTypeWithFallback, hty, hany, hpar, hpty, hne]
    · by_cases hps : render pty p = "any"
      · simp [renderTypeWithFallback, hty, hany, hpar, hpty, hne, hps]
      · simp [renderTypeWithFallback, hty, hany, hpar, hpty, hne, hps]

/-- Witness for the amended C4: with genuinely distinct parent/child type
handles the parent's render `"number"` replaces the child's `"any"`. -/
theorem fallback_render_characterization_witness :
    renderTypeWithFallback cwGetType cwTypeToString ctParentOf 0 = some "number" := by
  have h := (fallback_render_characterization cwGetType cwTypeToString ctParentOf
    0 0 rfl).2.2.2 1 1 rfl rfl rfl
  rw [h]
  decide

/-! ## C8: hover-cache reuse tolerance -/

/-- C8, counterexample: the cursor sits on the same line as the cached
position at character distance exactly 10 — within a "±10 character
tolerance" — with a cached pair present, yet the command re-resolves
(`Math.abs(...) < 10` is strict) and copies the freshly resolved string
rather than reusing the cached one. -/
theorem hover_cache_boundary_ten_reresolves :
    (VPosition.mk 0 0).line = (VPosition.mk 0 10).line ∧
    ((0 : Int) - (10 : Int)).natAbs ≤ 10 ∧
    copyTypeCommandHover (some ⟨0, 10⟩) (some "cached") (some ⟨0, 0⟩) hoverResolveFresh =
      (.infoNote "Type copied to clipboard: fresh", some "fresh", true) := by
  decide

/-- C8 (amended): with an active editor and a cached pair, the cached string
is reused (no re-resolution) if and only if the cached string is nonempty,
the lines agree, and the character distance is at most 9 (strictly below
10); on reuse the clipboard receives the cached string; with no cached pair
the type is always re-resolved. -/
theorem hover_cache_reuse_characterization (pos cpos : VPosition) (info : String)
    (get : VPosition → Option String) :
    ((copyTypeCommandHover (some pos) (some info) (some cpos) get).2.2 = false ↔
      (info ≠ "" ∧ cpos.line = pos.line ∧
        ((cpos.character : Int) - (pos.character : Int)).natAbs ≤ 9)) ∧
    (∀ cp, (copyTypeCommandHover (some pos) none cp get).2.2 = true) ∧
    ((copyTypeCommandHover (some pos) (some info) (some cpos) get).2.2 = false →
      (copyTypeCommandHover (some pos) (some info) (some cpos) get).2.1 = some info) := by
  have habs : (((cpos.character : Int) - (pos.character : Int)).natAbs < 10) ↔
      (((cpos.character : Int) - (pos.character : Int)).natAbs ≤ 9) := by omega
  refine ⟨?_, ?_, ?_⟩
  · by_cases hc : info ≠ "" ∧ cpos.line = pos.line ∧
        ((cpos.character : Int) - (pos.character : Int)).natAbs < 10
    · constructor
      · intro _
        exact ⟨hc.1, hc.2.1, habs.mp hc.2.2⟩
      · intro _
        simp only [copyTypeCommandHover]
        rw [if_pos hc]
    · simp only [copyTypeCommandHover, if_neg hc]
      constructor
      · intro hfresh
        exfalso
        unfold copyFresh at hfresh
        rcases hget : get pos with _ | t <;> rw [hget] at hfresh <;> simp at hfresh
      · intro hr
        exact absurd ⟨hr.1, hr.2.1, habs.mpr hr.2.2⟩ hc
  · intro cp
    rcases cp with _ | cpv <;>
      simp only [copyTypeCommandHover, copyFresh] <;>
      rcases hget : get pos with _ | t <;> simp [hget]
  · by_cases hc : info ≠ "" ∧ cpos.line = pos.line ∧
        ((cpos.character : Int) - (pos.character : Int)).natAbs < 10
    · intro _
      simp only [copyTypeCommandHover]
      rw [if_pos hc]
    · intro hfalse
      exfalso
      simp only [copyTypeCommandHover, if_neg hc] at hfalse
      unfold copyFresh at hfalse
      rcases hget : get pos with _ | t <;> rw [hget] at hfalse <;> simp at hfalse

/-- Witness for the amended C8: a cursor five characters away on the same
line reuses the cached string and the clipboard receives it. -/
theorem hover_cache_reuse_characterization_witness :
    (copyTypeCommandHover (some ⟨0, 0⟩) (some "T") (some ⟨0, 5⟩)
      hoverResolveNone).2.1 = some "T" := by
  have h := hover_cache_reuse_characterization ⟨0, 0⟩ ⟨0, 5⟩ "T" hoverResolveNone
  exact h.2.2 (h.1.mpr (by decide))

/-! ## C9: command outcomes -/

/-- C9: every invocation of either command handler ends in exactly one of
the three outcome shapes — a clipboard write paired with a success
notification containing the copied string, a warning notification and no
write, or an error notification and no write (the three `Outcome`
constructors are mutually exclusive); and with no active editor the result
is the error notification with no clipboard write.  Collaborator failure
(`attempt = .error`) is absorbed into the error notification: nothing
escapes the handler, which is a total function. -/
theorem command_outcomes_spec (ed : Option EditorInput)
    (att : Except String (Option String)) :
    copyTypeAtCursorHandler none att = (.errorNote "No active editor", none) ∧
    copyVariableTypeHandler none att = (.errorNote "没有活动的编辑器", none) ∧
    ((∃ t, (copyTypeAtCursorHandler ed att).1 = .infoNote ("Type copied: " ++ t) ∧
        (copyTypeAtCursorHandler ed att).2 = some t) ∨
      (isWarningOutcome (copyTypeAtCursorHandler ed att).1 ∧
        (copyTypeAtCursorHandler ed att).2 = none) ∨
      (isErrorOutcome (copyTypeAtCursorHandler ed att).1 ∧
        (copyTypeAtCursorHandler ed att).2 = none)) ∧
    ((∃ t, (copyVariableTypeHandler ed att).1 = .infoNote ("类型已复制: " ++ t) ∧
        (copyVariableTypeHandler ed att).2 = some t) ∨
      (isWarningOutcome (copyVariableTypeHandler ed att).1 ∧
        (copyVariableTypeHandler ed att).2 = none) ∨
      (isErrorOutcome (copyVariableTypeHandler ed att).1 ∧
        (copyVariableTypeHandler ed att).2 = none)) := by
  refine ⟨rfl, rfl, ?_, ?_⟩
  · rcases ed with _ | e
    · exact .inr (.inr ⟨trivial, rfl⟩)
    · by_cases h1 : e.selectionText = ""
      · rcases hw : e.wordAtCursor with _ | w
        · refine .inr (.inl ⟨?_, ?_⟩) <;>
            simp [copyTypeAtCursorHandler, h1, hw, isWarningOutcome]
        · by_cases h2 : w = ""
          · refine .inr (.inl ⟨?_, ?_⟩) <;>
              simp [copyTypeAtCursorHandler, h1, hw, h2, isWarningOutcome]
          · rcases att with m | o
            · refine .inr (.inr ⟨?_, ?_⟩) <;>
                simp [copyTypeAtCursorHandler, h1, hw, h2, isErrorOutcome]
            · rcases o with _ | t
              · refine .inr (.inl ⟨?_, ?_⟩) <;>
                  simp [copyTypeAtCursorHandler, h1, hw, h2, isWarningOutcome]
              · refine .inl ⟨t, ?_, ?_⟩ <;>
                  simp [copyTypeAtCursorHandler, h1, hw, h2]
      · rcases att with m | o
        · refine .inr (.inr ⟨?_, ?_⟩) <;>
            simp [copyTypeAtCursorHandler, h1, isErrorOutcome]
        · rcases o with _ | t
          · refine .inr (.inl ⟨?_, ?_⟩) <;>
              simp [copyTypeAtCursorHandler, h1, isWarningOutcome]
          · refine .inl ⟨t, ?_, ?_⟩ <;>
              simp [copyTypeAtCursorHandler, h1]
  · rcases ed with _ | e
    · exact .inr (.inr ⟨trivial, rfl⟩)
    · by_cases h1 : e.selectionText = ""
      · rcases hw : e.wordAtCursor with _ | w
        · refine .inr (.inl ⟨?_, ?_⟩) <;>
            simp [copyVariableTypeHandler, h1, hw, isWarningOutcome]
        · by_cases h2 : w = ""
          · refine .inr (.inl ⟨?_, ?_⟩) <;>
              simp [copyVariableTypeHandler, h1, hw, h2, isWarningOutcome]
          · rcases att with m | o
            · refine .inr (.inr ⟨?_, ?_⟩) <;>
                simp [copyVariableTypeHandler, h1, hw, h2, isErrorOutcome]
            · rcases o with _ | t
              · refine .inr (.inl ⟨?_, ?_⟩) <;>
                  simp [copyVariableTypeHandler, h1, hw, h2, isWarningOutcome]
              · refine .inl ⟨t, ?_, ?_⟩ <;>
                  simp [copyVariableTypeHandler, h1, hw, h2]
      · rcases att with m | o
        · refine .inr (.inr ⟨?_, ?_⟩) <;>
            simp [copyVariableTypeHandler, h1, isErrorOutcome]
        · rcases o with _ | t
          · refine .inr (.inl ⟨?_, ?_⟩) <;>
              simp [copyVariableTypeHandler, h1, isWarningOutcome]
          · refine .inl ⟨t, ?_, ?_⟩ <;>
              simp [copyVariableTypeHandler, h1]

/-! ## C10: the simple variant's host never refreshes cached files -/

/-- C10, counterexample: `b.ts` is read into the cache while its text is
empty; the file then changes on disk to `"X"`, and — although `b.ts` is
never an active document — the next snapshot query re-reads the disk
(`if (!content)` treats the cached `""` as absent) and observes `"X"`,
text different from the first-read snapshot, updating the cache as well. -/
theorem empty_snapshot_reread_observes_new_text :
    (getScriptSnapshotSimple diskV1 [] "b.ts").1 = some "" ∧
    (getScriptSnapshotSimple diskV2 (getScriptSnapshotSimple diskV1 [] "b.ts").2
      "b.ts").1 = some "X" ∧
    mget (getScriptSnapshotSimple diskV2 (getScriptSnapshotSimple diskV1 [] "b.ts").2
      "b.ts").2 "b.ts" = some "X" ∧
    ("X" : String) ≠ "" := by
  decide

/-- A snapshot query for a file cached with nonempty text returns the
cached text (or `undefined` when the file no longer exists) and leaves the
cache untouched, whatever the disk now holds. -/
theorem getScriptSnapshotSimple_stable (disk : String → Option String)
    (cache : List (String × String)) (p t : String)
    (hp : mget cache p = some t) (ht : t ≠ "") :
    (getScriptSnapshotSimple disk cache p).2 = cache ∧
    ((getScriptSnapshotSimple disk cache p).1 = some t ∨
      (getScriptSnapshotSimple disk cache p).1 = none) := by
  unfold getScriptSnapshotSimple
  rcases hd : disk p with _ | d
  · exact ⟨rfl, .inr rfl⟩
  · rw [hp]
    simp [ht]

/-- A snapshot query for one file never touches another file's cache
entry. -/
theorem getScriptSnapshotSimple_other (disk : String → Option String)
    (cache : List (String × String)) (p q : String) (hne : p ≠ q) :
    mget (getScriptSnapshotSimple disk cache q).2 p = mget cache p := by
  unfold getScriptSnapshotSimple
  rcases hd : disk q with _ | d
  · rfl
  · rcases hq : mget cache q with _ | c
    · simp [mget_mset_other cache q p d hne]
    · by_cases hc : c = "" <;> simp [hc, mget_mset_other cache q p d hne]

/-- C10 (amended): the simple variant's host reports the constant version
string `"1"` for every file; and once a file has been read into the cache
with *nonempty* text, then over any sequence of further session events in
which that file is never the active document, its cache entry is never
updated or invalidated, and every snapshot observation of it returns the
first-read text (or `undefined` if the file no longer exists) — even if the
file changes on disk. -/
theorem simple_host_version_and_cache_stability
    (events : List SessionEvent) (cache : List (String × String)) (p t : String)
    (hp : mget cache p = some t) (ht : t ≠ "")
    (hq : ∀ text, SessionEvent.query p text ∉ events) :
    (∀ f, getScriptVersionSimple f = "1") ∧
    mget (runEvents events cache).1 p = some t ∧
    (∀ r ∈ (runEvents events cache).2, r.1 = p → r.2 = some t ∨ r.2 = none) := by
  induction events generalizing cache with
  | nil => exact ⟨fun _ => rfl, hp, by simp [runEvents]⟩
  | cons e rest ih =>
    have hqrest : ∀ text, SessionEvent.query p text ∉ rest := by
      intro text hmem
      exact hq text (List.mem_cons_of_mem _ hmem)
    rcases e with ⟨f, txt⟩ | ⟨f, disk⟩
    · have hfp : f ≠ p := by
        intro hfp
        subst hfp
        exact hq txt (List.mem_cons_self _ _)
      have hp' : mget (cacheActiveDocument cache f txt) p = some t := by
        unfold cacheActiveDocument
        rw [mget_mset_other cache f p txt (Ne.symm hfp), hp]
      have hrun : runEvents (SessionEvent.query f txt :: rest) cache =
          runEvents rest (cacheActiveDocument cache f txt) := rfl
      rw [hrun]
      exact ih (cacheActiveDocument cache f txt) hp' hqrest
    · have hrun : runEvents (SessionEvent.snapshot f disk :: rest) cache =
          ((runEvents rest (getScriptSnapshotSimple disk cache f).2).1,
            (f, (getScriptSnapshotSimple disk cache f).1) ::
              (runEvents rest (getScriptSnapshotSimple disk cache f).2).2) := rfl
      rw [hrun]
      by_cases hfp : f = p
      · subst hfp
        have hst := getScriptSnapshotSimple_stable disk cache f t hp ht
        have hrec := ih (getScriptSnapshotSimple disk cache f).2
          (by rw [hst.1]; exact hp) hqrest
        refine ⟨fun _ => rfl, hrec.2.1, ?_⟩
        intro r hr hrp
        rcases List.mem_cons.mp hr with hr | hr
        · rw [hr]
          exact hst.2
        · exact hrec.2.2 r hr hrp
      · have hp' : mget (getScriptSnapshotSimple disk cache f).2 p = some t := by
          rw [getScriptSnapshotSimple_other disk cache p f (Ne.symm hfp), hp]
        have hrec := ih (getScriptSnapshotSimple disk cache f).2 hp' hqrest
        refine ⟨fun _ => rfl, hrec.2.1, ?_⟩
        intro r hr hrp
        rcases List.mem_cons.mp hr with hr | hr
        · exfalso
          rw [hr] at hrp
          exact hfp hrp
        · exact hrec.2.2 r hr hrp

/-- Witness for the amended C10: `b.ts`, cached as `"B"`, still reads as
`"B"` after a snapshot against a changed disk and a command on another
active document. -/
theorem simple_host_version_and_cache_stability_witness :
    mget (runEvents stableEvents [("b.ts", "B")]).1 "b.ts" = some "B" := by
  have h := simple_host_version_and_cache_stability stableEvents [("b.ts", "B")]
    "b.ts" "B" (by decide) (by decide) ?_
  · exact h.2.1
  · intro text hmem
    rcases List.mem_cons.mp hmem with hmem | hmem
    · exact SessionEvent.noConfusion hmem
    · rcases List.mem_cons.mp hmem with hmem | hmem
      · injection hmem with h1 h2
        exact absurd h1 (by decide)
      · exact List.not_mem_nil _ hmem

/-! ## C2: the file-count bound of `getAllTsFiles` -/

/-- Walking a flat run of `k` collectible files: the collected list grows
until its length first *exceeds* `maxFiles`, i.e. up to `maxFiles + 1`
(the loop breaks only once `files.length > maxFiles`). -/
theorem walkEntries_replicate_length (dirPath : String) (depth : Nat) (name : String)
    (hext : allowedExts.contains (extname name) = true) :
    ∀ (k : Nat) (files : List String) (visited : List (String × Nat)),
      (walkEntries dirPath depth (List.replicate k (FSEntry.file name)) files visited).1.length =
        if files.length > maxFiles then files.length
        else min (files.length + k) (maxFiles + 1) := by
  intro k
  induction k with
  | zero =>
    intro files visited
    simp only [List.replicate_zero, walkEntries]
    split
    · rfl
    · next h => omega
  | succ k ih =>
    intro files visited
    rw [List.replicate_succ]
    by_cases hl : files.length > maxFiles
    · simp [walkEntries, hl]
    · simp only [walkEntries, if_neg hl, isDirectoryEntry, entryName, hext,
        Bool.false_eq_true, if_false, if_true]
      rw [ih]
      simp only [List.length_append, List.length_singleton]
      split
      · next h => omega
      · next h => omega

/-- C2 (supporting theorem for the code bug): for a flat project of 2000
source files the enumeration returns 1001 paths — more than the configured
maximum of 1000, because the guards compare with `>` instead of `>=`. -/
theorem getAllTsFiles_flat_2000_returns_1001 :
    (getAllTsFiles "root" flatRoot2000).1.length = 1001 := by
  unfold getAllTsFiles flatRoot2000
  have hguard : ¬ ((0 : Nat) > maxDepth ∨ ([] : List String).length > maxFiles) := by
    simp [maxDepth, maxFiles]
  simp only [searchFiles, if_neg hguard]
  rw [walkEntries_replicate_length "root" 0 "a.ts" (by decide)]
  simp [maxFiles]

/-! ## C6: what the walk reads and skips -/

/-- Attempting to read an unreadable directory collects no file. -/
theorem searchFiles_unreadable_files (path : String) (depth : Nat) (n : String)
    (files : List String) (visited : List (String × Nat)) :
    (searchFiles path depth (FSEntry.unreadableDir n) files visited).1 = files := by
  simp only [searchFiles]
  split <;> rfl

/-- Once the collected list is over the bound, the loop breaks
immediately. -/
theorem walkEntries_of_break (dirPath : String) (depth : Nat) (l : List FSEntry)
    (files : List String) (visited : List (String × Nat))
    (h : files.length > maxFiles) :
    walkEntries dirPath depth l files visited = (files, visited) := by
  cases l with
  | nil => simp [walkEntries]
  | cons e rest => simp only [walkEntries, if_pos h]

/-- The collected files do not depend on the ghost trace accumulator. -/
theorem walk_files_indep :
    (∀ (path : String) (depth : Nat) (d : FSEntry) (files : List String)
        (visited : List (String × Nat)), ∀ visited',
      (searchFiles path depth d files visited).1 =
        (searchFiles path depth d files visited').1) ∧
    (∀ (dirPath : String) (depth : Nat) (l : List FSEntry) (files : List String)
        (visited : List (String × Nat)), ∀ visited',
      (walkEntries dirPath depth l files visited).1 =
        (walkEntries dirPath depth l files visited').1) := by
  refine searchFiles.mutual_induct
    (fun path depth d files visited => ∀ visited',
      (searchFiles path depth d files visited).1 =
        (searchFiles path depth d files visited').1)
    (fun dirPath depth l files visited => ∀ visited',
      (walkEntries dirPath depth l files visited).1 =
        (walkEntries dirPath depth l files visited').1)
    ?_ ?_ ?_ ?_ ?_ ?_ ?_ ?_ ?_ ?_
  · intro d path depth files visited h visited'
    simp only [searchFiles.eq_def, if_pos h]
  · intro path depth files visited h name visited'
    simp only [searchFiles, if_neg h]
  · intro path depth files visited h n visited'
    simp only [searchFiles, if_neg h]
  · intro path depth files visited h n entries ih visited'
    simp only [searchFiles, if_neg h]
    exact ih (visited' ++ [(n, depth)])
  · intro dirPath depth files visited visited'
    simp only [walkEntries]
  · intro dirPath depth e rest files visited h visited'
    simp only [walkEntries, if_pos h]
  · intro dirPath depth e rest files visited h1 h2 h3 rpair ih1 ih2 visited'
    simp only [walkEntries, if_neg h1, if_pos h2, if_pos h3]
    rw [← ih1 visited']
    exact ih2 (searchFiles (dirPath ++ "/" ++ entryName e) (depth + 1) e files visited').2
  · intro dirPath depth e rest files visited h1 h2 h3 ih visited'
    simp only [walkEntries, if_neg h1, if_pos h2, if_neg h3]
    exact ih visited'
  · intro dirPath depth e rest files visited h1 h2 h3 ih visited'
    simp only [walkEntries, if_neg h1, if_neg h2, if_pos h3]
    exact ih visited'
  · intro dirPath depth e rest files visited h1 h2 h3 ih visited'
    simp only [walkEntries, if_neg h1, if_neg h2, if_neg h3]
    exact ih visited'

/-- Every directory the walk reads (or attempts to read) is recorded at
depth at most `maxDepth`, and — apart from the root, recorded at depth 0 —
its name is neither in `skipDirs` nor hidden. -/
theorem walk_visited_bounds :
    (∀ (path : String) (depth : Nat) (d : FSEntry) (files : List String)
        (visited : List (String × Nat)),
      (depth = 0 ∨ (¬ skipDirs.contains (entryName d) = true ∧
        ¬ strStartsWith (entryName d) "." = true)) →
      (∀ r ∈ visited, r.2 ≤ maxDepth ∧ (r.2 = 0 ∨
        (¬ skipDirs.contains r.1 = true ∧ ¬ strStartsWith r.1 "." = true))) →
      ∀ r ∈ (searchFiles path depth d files visited).2,
        r.2 ≤ maxDepth ∧ (r.2 = 0 ∨
          (¬ skipDirs.contains r.1 = true ∧ ¬ strStartsWith r.1 "." = true))) ∧
    (∀ (dirPath : String) (depth : Nat) (l : List FSEntry) (files : List String)
        (visited : List (String × Nat)),
      (∀ r ∈ visited, r.2 ≤ maxDepth ∧ (r.2 = 0 ∨
        (¬ skipDirs.contains r.1 = true ∧ ¬ strStartsWith r.1 "." = true))) →
      ∀ r ∈ (walkEntries dirPath depth l files visited).2,
        r.2 ≤ maxDepth ∧ (r.2 = 0 ∨
          (¬ skipDirs.contains r.1 = true ∧ ¬ strStartsWith r.1 "." = true))) := by
  refine searchFiles.mutual_induct
    (fun path depth d files visited =>
      (depth = 0 ∨ (¬ skipDirs.contains (entryName d) = true ∧
        ¬ strStartsWith (entryName d) "." = true)) →
      (∀ r ∈ visited, r.2 ≤ maxDepth ∧ (r.2 = 0 ∨
        (¬ skipDirs.contains r.1 = true ∧ ¬ strStartsWith r.1 "." = true))) →
      ∀ r ∈ (searchFiles path depth d files visited).2,
        r.2 ≤ maxDepth ∧ (r.2 = 0 ∨
          (¬ skipDirs.contains r.1 = true ∧ ¬ strStartsWith r.1 "." = true)))
    (fun dirPath depth l files visited =>
      (∀ r ∈ visited, r.2 ≤ maxDepth ∧ (r.2 = 0 ∨
        (¬ skipDirs.contains r.1 = true ∧ ¬ strStartsWith r.1 "." = true))) →
      ∀ r ∈ (walkEntries dirPath depth l files visited).2,
        r.2 ≤ maxDepth ∧ (r.2 = 0 ∨
          (¬ skipDirs.contains r.1 = true ∧ ¬ strStartsWith r.1 "." = true)))
    ?_ ?_ ?_ ?_ ?_ ?_ ?_ ?_ ?_ ?_
  · intro d path depth files visited h _ hv
    simpa only [searchFiles.eq_def, if_pos h] using hv
  · intro path depth files visited h name _ hv
    simpa only [searchFiles, if_neg h] using hv
  · intro path depth files visited h n hname hv
    simp only [searchFiles, if_neg h]
    intro r hr
    rcases List.mem_append.mp hr with hr | hr
    · exact hv r hr
    · rcases List.mem_singleton.mp hr with rfl
      exact ⟨by omega, hname⟩
  · intro path depth files visited h n entries ih hname hv
    simp only [searchFiles, if_neg h]
    refine ih ?_
    intro r hr
    rcases List.mem_append.mp hr with hr | hr
    · exact hv r hr
    · rcases List.mem_singleton.mp hr with rfl
      exact ⟨by omega, hname⟩
  · intro dirPath depth files visited hv
    simpa only [walkEntries] using hv
  · intro dirPath depth e rest files visited h hv
    simpa only [walkEntries, if_pos h] using hv
  · intro dirPath depth e rest files visited h1 h2 h3 rpair ih1 ih2 hv
    simp only [walkEntries, if_neg h1, if_pos h2, if_pos h3]
    exact ih2 (ih1 (.inr h3) hv)
  · intro dirPath depth e rest files visited h1 h2 h3 ih hv
    simp only [walkEntries, if_neg h1, if_pos h2, if_neg h3]
    exact ih hv
  · intro dirPath depth e rest files visited h1 h2 h3 ih hv
    simp only [walkEntries, if_neg h1, if_neg h2, if_pos h3]
    exact ih hv
  · intro dirPath depth e rest files visited h1 h2 h3 ih hv
    simp only [walkEntries, if_neg h1, if_neg h2, if_neg h3]
    exact ih hv

/-- Removing an unreadable directory entry from a directory leaves the
collected files unchanged: the walk skips it silently and continues with
the remaining entries. -/
theorem walkEntries_unreadable_skipped (dirPath : String) (depth : Nat) (n : String)
    (post : List FSEntry) :
    ∀ (pre : List FSEntry) (files : List String)
      (visited visited' : List (String × Nat)),
      (walkEntries dirPath depth (pre ++ FSEntry.unreadableDir n :: post) files visited).1 =
        (walkEntries dirPath depth (pre ++ post) files visited').1 := by
  intro pre
  induction pre with
  | nil =>
    intro files visited visited'
    simp only [List.nil_append]
    by_cases hl : files.length > maxFiles
    · rw [walkEntries_of_break dirPath depth _ files visited hl,
        walkEntries_of_break dirPath depth post files visited' hl]
    · by_cases hn : ¬ skipDirs.contains (entryName (FSEntry.unreadableDir n)) = true ∧
          ¬ strStartsWith (entryName (FSEntry.unreadableDir n)) "." = true
      · simp only [walkEntries, if_neg hl, isDirectoryEntry, if_pos hn, if_pos rfl]
        rw [searchFiles_unreadable_files]
        exact walk_files_indep.2 dirPath depth post files
          (searchFiles (dirPath ++ "/" ++ entryName (FSEntry.unreadableDir n))
            (depth + 1) (FSEntry.unreadableDir n) files visited).2 visited'
      · simp only [walkEntries, if_neg hl, isDirectoryEntry, if_neg hn, if_pos rfl]
        exact walk_files_indep.2 dirPath depth post files visited visited'
  | cons e pre ih =>
    intro files visited visited'
    simp only [List.cons_append]
    by_cases hl : files.length > maxFiles
    · rw [walkEntries_of_break dirPath depth _ files visited hl,
        walkEntries_of_break dirPath depth _ files visited' hl]
    · by_cases hd : isDirectoryEntry e = true
      · by_cases hn : ¬ skipDirs.contains (entryName e) = true ∧
            ¬ strStartsWith (entryName e) "." = true
        · simp only [walkEntries, if_neg hl, if_pos hd, if_pos hn]
          rw [← walk_files_indep.1 (dirPath ++ "/" ++ entryName e) (depth + 1) e
            files visited visited']
          exact ih _ _ _
        · simp only [walkEntries, if_neg hl, if_pos hd, if_neg hn]
          exact ih _ _ _
      · by_cases hx : allowedExts.contains (extname (entryName e)) = true
        · simp only [walkEntries, if_neg hl, if_neg hd, if_pos hx]
          exact ih _ _ _
        · simp only [walkEntries, if_neg hl, if_neg hd, if_neg hx]
          exact ih _ _ _

/-- C6: (i) every directory the enumeration reads or attempts to read sits
at depth at most 10, and — except for the root itself at depth 0 — has a
name that is neither in the fixed skip-list nor begins with the hidden-file
marker `.`; (ii) an unreadable directory is skipped silently: deleting it
from its parent's entry list leaves the collected files unchanged, so the
walk continues past it. -/
theorem getAllTsFiles_walk_bounds :
    (∀ (rootPath : String) (root : FSEntry),
      ∀ r ∈ (getAllTsFiles rootPath root).2,
        r.2 ≤ maxDepth ∧ (r.2 = 0 ∨
          (¬ skipDirs.contains r.1 = true ∧ ¬ strStartsWith r.1 "." = true))) ∧
    (∀ (dirPath : String) (depth : Nat) (n : String) (pre post : List FSEntry)
        (files : List String) (visited visited' : List (String × Nat)),
      (walkEntries dirPath depth (pre ++ FSEntry.unreadableDir n :: post) files visited).1 =
        (walkEntries dirPath depth (pre ++ post) files visited').1) := by
  constructor
  · intro rootPath root r hr
    exact walk_visited_bounds.1 rootPath 0 root [] [] (.inl rfl) (by simp) r hr
  · intro dirPath depth n pre post files visited visited'
    exact walkEntries_unreadable_skipped dirPath depth n post pre files visited visited'

/-- Witness for C6 at a concrete tree: the unreadable directory `secrets`
is recorded at depth 1, within the depth bound and passing the name
filters. -/
theorem getAllTsFiles_walk_bounds_witness :
    (1 : Nat) ≤ maxDepth ∧ ((1 : Nat) = 0 ∨
      (¬ skipDirs.contains "secrets" = true ∧ ¬ strStartsWith "secrets" "." = true)) := by
  have hskip : skipDirs.contains "secrets" = false := by decide
  have hskip' : ("secrets" : String) ∉ skipDirs := by decide
  have hdot : strStartsWith "secrets" "." = false := by decide
  have hmem : (("secrets", 1) : String × Nat) ∈
      (getAllTsFiles "root" (FSEntry.dir "root" [FSEntry.unreadableDir "secrets"])).2 := by
    simp [getAllTsFiles, searchFiles, walkEntries, entryName, isDirectoryEntry,
      maxDepth, maxFiles, hskip, hskip', hdot]
  exact getAllTsFiles_walk_bounds.1 "root"
    (FSEntry.dir "root" [FSEntry.unreadableDir "secrets"]) ("secrets", 1) hmem

/-! ## C5 and C7: structure of well-formed syntax trees -/

theorem mem_subnodesList {m : TsNode} :
    ∀ {l : List TsNode}, m ∈ subnodesList l ↔ ∃ c ∈ l, m ∈ subnodes c := by
  intro l
  induction l with
  | nil => simp [subnodesList]
  | cons c cs ih => simp [subnodesList, ih]

theorem self_mem_subnodes (n : TsNode) : n ∈ subnodes n := by
  cases n with
  | node s e cs => simp [subnodes]

theorem mem_subnodes_of_child {m c : TsNode} {s e : Nat} {cs : List TsNode}
    (hc : c ∈ cs) (hm : m ∈ subnodes c) : m ∈ subnodes (TsNode.node s e cs) := by
  simp only [subnodes, List.mem_cons]
  exact .inr (mem_subnodesList.mpr ⟨c, hc, hm⟩)

theorem mem_subnodes_node {m : TsNode} {s e : Nat} {cs : List TsNode}
    (hm : m ∈ subnodes (TsNode.node s e cs)) :
    m = TsNode.node s e cs ∨ m ∈ subnodesList cs := by
  simpa [subnodes] using hm

theorem wfNode_parts {s e : Nat} {cs : List TsNode} (h : wfNode (TsNode.node s e cs) = true) :
    s ≤ e ∧ childrenWithin s e cs = true ∧ siblingsOrdered cs = true ∧
      wfForest cs = true := by
  simp only [wfNode, Bool.and_eq_true, decide_eq_true_eq] at h
  exact ⟨h.1.1.1, h.1.1.2, h.1.2, h.2⟩

theorem wfForest_mem : ∀ {l : List TsNode} {c : TsNode},
    wfForest l = true → c ∈ l → wfNode c = true := by
  intro l
  induction l with
  | nil => intro c _ hc; exact absurd hc (List.not_mem_nil c)
  | cons d ds ih =>
    intro c hw hc
    simp only [wfForest, Bool.and_eq_true] at hw
    rcases List.mem_cons.mp hc with rfl | hc
    · exact hw.1
    · exact ih hw.2 hc

theorem childrenWithin_mem {s e : Nat} : ∀ {l : List TsNode} {c : TsNode},
    childrenWithin s e l = true → c ∈ l → s ≤ nodeStart c ∧ nodeEnd c ≤ e := by
  intro l
  induction l with
  | nil => intro c _ hc; exact absurd hc (List.not_mem_nil c)
  | cons d ds ih =>
    intro c hw hc
    simp only [childrenWithin, Bool.and_eq_true, decide_eq_true_eq] at hw
    rcases List.mem_cons.mp hc with rfl | hc
    · exact hw.1
    · exact ih hw.2 hc

theorem nodeStart_le_nodeEnd {n : TsNode} (h : wfNode n = true) :
    nodeStart n ≤ nodeEnd n := by
  cases n with
  | node s e cs => exact (wfNode_parts h).1

theorem siblingsOrdered_tail {x : TsNode} {l : List TsNode}
    (h : siblingsOrdered (x :: l) = true) : siblingsOrdered l = true := by
  cases l with
  | nil => rfl
  | cons y ys =>
    simp only [siblingsOrdered, Bool.and_eq_true] at h
    exact h.2

theorem siblingsOrdered_head_le :
    ∀ (l : List TsNode) (x : TsNode), siblingsOrdered (x :: l) = true →
      (∀ z ∈ x :: l, nodeStart z ≤ nodeEnd z) →
      ∀ y ∈ l, nodeEnd x ≤ nodeStart y := by
  intro l
  induction l with
  | nil => intro x _ _ y hy; exact absurd hy (List.not_mem_nil y)
  | cons y0 ys ih =>
    intro x h hse y hy
    simp only [siblingsOrdered, Bool.and_eq_true, decide_eq_true_eq] at h
    rcases List.mem_cons.mp hy with rfl | hy
    · exact h.1
    · have hy0 := ih y0 h.2 (fun z hz => hse z (List.mem_cons_of_mem x hz)) y hy
      have hsy0 : nodeStart y0 ≤ nodeEnd y0 := hse y0 (by simp)
      omega

/-- Among disjoint, ordered siblings, at most one (as a value) can contain
a given position. -/
theorem siblings_unique (pos : Nat) :
    ∀ (l : List TsNode), siblingsOrdered l = true →
      (∀ z ∈ l, nodeStart z ≤ nodeEnd z) →
      ∀ c ∈ l, ∀ c' ∈ l, containsPos c pos → containsPos c' pos → c = c' := by
  intro l
  induction l with
  | nil => intro _ _ c hc; exact absurd hc (List.not_mem_nil c)
  | cons x xs ih =>
    intro h hse c hc c' hc' hcp hcp'
    rcases List.mem_cons.mp hc with rfl | hcx
    · rcases List.mem_cons.mp hc' with rfl | hcx'
      · rfl
      · exfalso
        have hlt := siblingsOrdered_head_le xs c h hse c' hcx'
        rcases hcp with ⟨_, h2⟩
        rcases hcp' with ⟨h3, _⟩
        omega
    · rcases List.mem_cons.mp hc' with rfl | hcx'
      · exfalso
        have hlt := siblingsOrdered_head_le xs c' h hse c hcx
        rcases hcp with ⟨h1, _⟩
        rcases hcp' with ⟨_, h4⟩
        omega
      · exact ih (siblingsOrdered_tail h)
          (fun z hz => hse z (List.mem_cons_of_mem _ hz)) c hcx c' hcx' hcp hcp'

/-- In a well-formed tree every node's range contains the ranges of all its
subnodes. -/
theorem subnodes_range :
    (∀ n : TsNode, wfNode n = true → ∀ m ∈ subnodes n,
      nodeStart n ≤ nodeStart m ∧ nodeEnd m ≤ nodeEnd n) ∧
    (∀ l : List TsNode, ∀ c ∈ l, wfNode c = true → ∀ m ∈ subnodes c,
      nodeStart c ≤ nodeStart m ∧ nodeEnd m ≤ nodeEnd c) := by
  refine subnodes.mutual_induct
    (fun n => wfNode n = true → ∀ m ∈ subnodes n,
      nodeStart n ≤ nodeStart m ∧ nodeEnd m ≤ nodeEnd n)
    (fun l => ∀ c ∈ l, wfNode c = true → ∀ m ∈ subnodes c,
      nodeStart c ≤ nodeStart m ∧ nodeEnd m ≤ nodeEnd c)
    ?_ ?_ ?_
  · intro s e cs ih hwf m hm
    rcases wfNode_parts hwf with ⟨hse, hcw, hso, hwff⟩
    rcases mem_subnodes_node hm with rfl | hm'
    · exact ⟨le_refl _, le_refl _⟩
    · rcases mem_subnodesList.mp hm' with ⟨c, hc, hmc⟩
      have hwc : wfNode c = true := wfForest_mem hwff hc
      have hbc := childrenWithin_mem hcw hc
      have hrec := ih c hc hwc m hmc
      exact ⟨le_trans hbc.1 hrec.1, le_trans hrec.2 hbc.2⟩
  · intro c hc
    exact absurd hc (List.not_mem_nil c)
  · intro c cs ih1 ih2 c' hc'
    rcases List.mem_cons.mp hc' with rfl | hc'
    · exact ih1
    · exact ih2 c' hc'

/-- Every subnode of a well-formed tree is well-formed. -/
theorem wf_subnodes :
    (∀ n : TsNode, wfNode n = true → ∀ m ∈ subnodes n, wfNode m = true) ∧
    (∀ l : List TsNode, ∀ c ∈ l, wfNode c = true → ∀ m ∈ subnodes c,
      wfNode m = true) := by
  refine subnodes.mutual_induct
    (fun n => wfNode n = true → ∀ m ∈ subnodes n, wfNode m = true)
    (fun l => ∀ c ∈ l, wfNode c = true → ∀ m ∈ subnodes c, wfNode m = true)
    ?_ ?_ ?_
  · intro s e cs ih hwf m hm
    rcases wfNode_parts hwf with ⟨_, _, _, hwff⟩
    rcases mem_subnodes_node hm with rfl | hm'
    · exact hwf
    · rcases mem_subnodesList.mp hm' with ⟨c, hc, hmc⟩
      exact ih c hc (wfForest_mem hwff hc) m hmc
  · intro c hc
    exact absurd hc (List.not_mem_nil c)
  · intro c cs ih1 ih2 c' hc'
    rcases List.mem_cons.mp hc' with rfl | hc'
    · exact ih1
    · exact ih2 c' hc'

/-- If a subnode contains the position, so does the node itself. -/
theorem containsPos_ancestor {n m : TsNode} {pos : Nat} (hwf : wfNode n = true)
    (hm : m ∈ subnodes n) (hc : containsPos m pos) : containsPos n pos := by
  have h := subnodes_range.1 n hwf m hm
  rcases hc with ⟨h1, h2⟩
  exact ⟨le_trans h.1 h1, lt_of_lt_of_le h2 h.2⟩

/-- Any two subnodes of a well-formed tree that both contain a position are
comparable: one is a subnode of the other (the containing nodes form a
chain). -/
theorem subnodes_comparable (pos : Nat) :
    (∀ n : TsNode, wfNode n = true → ∀ a ∈ subnodes n, ∀ b ∈ subnodes n,
      containsPos a pos → containsPos b pos →
      a ∈ subnodes b ∨ b ∈ subnodes a) ∧
    (∀ l : List TsNode, ∀ c ∈ l, wfNode c = true → ∀ a ∈ subnodes c,
      ∀ b ∈ subnodes c, containsPos a pos → containsPos b pos →
      a ∈ subnodes b ∨ b ∈ subnodes a) := by
  refine subnodes.mutual_induct
    (fun n => wfNode n = true → ∀ a ∈ subnodes n, ∀ b ∈ subnodes n,
      containsPos a pos → containsPos b pos → a ∈ subnodes b ∨ b ∈ subnodes a)
    (fun l => ∀ c ∈ l, wfNode c = true → ∀ a ∈ subnodes c, ∀ b ∈ subnodes c,
      containsPos a pos → containsPos b pos → a ∈ subnodes b ∨ b ∈ subnodes a)
    ?_ ?_ ?_
  · intro s e cs ih hwf a ha b hb hca hcb
    rcases wfNode_parts hwf with ⟨hse, hcw, hso, hwff⟩
    rcases mem_subnodes_node ha with rfl | ha'
    · exact .inr hb
    · rcases mem_subnodes_node hb with rfl | hb'
      · exact .inl ha
      · rcases mem_subnodesList.mp ha' with ⟨ca, hcamem, hamem⟩
        rcases mem_subnodesList.mp hb' with ⟨cb, hcbmem, hbmem⟩
        have hwa := wfForest_mem hwff hcamem
        have hwb := wfForest_mem hwff hcbmem
        have hcac : containsPos ca pos := containsPos_ancestor hwa hamem hca
        have hcbc : containsPos cb pos := containsPos_ancestor hwb hbmem hcb
        have hse' : ∀ z ∈ cs, nodeStart z ≤ nodeEnd z :=
          fun z hz => nodeStart_le_nodeEnd (wfForest_mem hwff hz)
        have heq : ca = cb :=
          siblings_unique pos cs hso hse' ca hcamem cb hcbmem hcac hcbc
        subst heq
        exact ih ca hcamem hwa a hamem b hbmem hca hcb
  · intro c hc
    exact absurd hc (List.not_mem_nil c)
  · intro c cs ih1 ih2 c' hc'
    rcases List.mem_cons.mp hc' with rfl | hc'
    · exact ih1
    · exact ih2 c' hc'

/-! ## C5 and C7: behaviour of the rich resolver state -/

theorem stateLe_refl (st : Option (TsNode × Nat × Nat)) : stateLe st st :=
  fun r bs be h => ⟨r, bs, be, h, .inr ⟨rfl, le_refl _⟩⟩

theorem stateLe_trans {s1 s2 s3 : Option (TsNode × Nat × Nat)}
    (h12 : stateLe s1 s2) (h23 : stateLe s2 s3) : stateLe s1 s3 := by
  intro r bs be h
  rcases h12 r bs be h with ⟨r2, bs2, be2, h2, hle2⟩
  rcases h23 r2 bs2 be2 h2 with ⟨r3, bs3, be3, h3, hle3⟩
  exact ⟨r3, bs3, be3, h3, by omega⟩

theorem stateDom_mono {st st' : Option (TsNode × Nat × Nat)} {ms me : Nat}
    (h : stateDom st ms me) (hle : stateLe st st') : stateDom st' ms me := by
  rcases h with ⟨r, bs, be, hst, hp⟩
  rcases hle r bs be hst with ⟨r', bs', be', hst', hp'⟩
  exact ⟨r', bs', be', hst', by omega⟩

/-- The update step of `visit` (lines 354-359) never worsens the best. -/
theorem stateLe_update (s e : Nat) (cs : List TsNode)
    (st : Option (TsNode × Nat × Nat)) :
    stateLe st (match st with
      | none => some (TsNode.node s e cs, s, e)
      | some (r, bestStart, bestEnd) =>
        if s > bestStart ∨ (s = bestStart ∧ e < bestEnd) then
          some (TsNode.node s e cs, s, e)
        else some (r, bestStart, bestEnd)) := by
  intro r bs be hst
  rcases st with _ | ⟨⟨r0, bs0, be0⟩⟩
  · exact absurd hst (by simp)
  · have h' := Option.some.inj hst
    cases h'
    by_cases hcond : s > bs ∨ (s = bs ∧ e < be)
    · simp only [if_pos hcond]
      exact ⟨TsNode.node s e cs, s, e, rfl, by omega⟩
    · simp only [if_neg hcond]
      exact ⟨r, bs, be, rfl, by omega⟩

/-- The update step records a best at least as specific as `(s, e)`. -/
theorem stateDom_update (s e : Nat) (cs : List TsNode)
    (st : Option (TsNode × Nat × Nat)) :
    stateDom (match st with
      | none => some (TsNode.node s e cs, s, e)
      | some (r, bestStart, bestEnd) =>
        if s > bestStart ∨ (s = bestStart ∧ e < bestEnd) then
          some (TsNode.node s e cs, s, e)
        else some (r, bestStart, bestEnd)) s e := by
  rcases st with _ | ⟨⟨r0, bs0, be0⟩⟩
  · exact ⟨TsNode.node s e cs, s, e, rfl, .inr ⟨rfl, le_refl _⟩⟩
  · by_cases hcond : s > bs0 ∨ (s = bs0 ∧ e < be0)
    · simp only [if_pos hcond]
      exact ⟨TsNode.node s e cs, s, e, rfl, .inr ⟨rfl, le_refl _⟩⟩
    · simp only [if_neg hcond]
      exact ⟨r0, bs0, be0, rfl, by omega⟩

/-- The update step preserves the state-shape invariant. -/
theorem goodState_update (pos s e : Nat) (cs : List TsNode) (S : TsNode → Prop)
    (hc : s ≤ pos ∧ pos < e) (hS : S (TsNode.node s e cs))
    (st : Option (TsNode × Nat × Nat)) :
    goodState pos S st → goodState pos S (match st with
      | none => some (TsNode.node s e cs, s, e)
      | some (r, bestStart, bestEnd) =>
        if s > bestStart ∨ (s = bestStart ∧ e < bestEnd) then
          some (TsNode.node s e cs, s, e)
        else some (r, bestStart, bestEnd)) := by
  rcases st with _ | ⟨⟨r0, bs0, be0⟩⟩
  · intro _ r bs be h
    have h' := Option.some.inj h
    cases h'
    exact ⟨rfl, rfl, hc, hS⟩
  · intro hst
    by_cases hcond : s > bs0 ∨ (s = bs0 ∧ e < be0)
    · simp only [if_pos hcond]
      intro r bs be h
      have h' := Option.some.inj h
      cases h'
      exact ⟨rfl, rfl, hc, hS⟩
    · simp only [if_neg hcond]
      intro r bs be h
      exact hst r bs be h

/-- `visit` (and the child loop) only ever improve the running best. -/
theorem visit_stateLe (pos : Nat) :
    (∀ (n : TsNode) (st : Option (TsNode × Nat × Nat)),
      stateLe st (visit pos n st)) ∧
    (∀ (l : List TsNode) (st : Option (TsNode × Nat × Nat)),
      stateLe st (visitChildren pos l st)) := by
  refine visit.mutual_induct pos
    (fun n st => stateLe st (visit pos n st))
    (fun l st => stateLe st (visitChildren pos l st))
    ?_ ?_ ?_ ?_
  · intro st s e cs hc st' ih
    simp only [visit, if_pos hc]
    exact stateLe_trans (stateLe_update s e cs st) ih
  · intro st s e cs hc
    simp only [visit, if_neg hc]
    exact stateLe_refl st
  · intro st
    simp only [visitChildren]
    exact stateLe_refl st
  · intro c cs st ih1 ih2
    simp only [visitChildren]
    exact stateLe_trans ih1 ih2

/-- `visit` preserves the state-shape invariant for any node set `S`
covering the subtree. -/
theorem visit_goodState (pos : Nat) (S : TsNode → Prop) :
    (∀ (n : TsNode) (st : Option (TsNode × Nat × Nat)),
      (∀ m ∈ subnodes n, S m) → goodState pos S st →
      goodState pos S (visit pos n st)) ∧
    (∀ (l : List TsNode) (st : Option (TsNode × Nat × Nat)),
      (∀ c ∈ l, ∀ m ∈ subnodes c, S m) → goodState pos S st →
      goodState pos S (visitChildren pos l st)) := by
  refine visit.mutual_induct pos
    (fun n st => (∀ m ∈ subnodes n, S m) → goodState pos S st →
      goodState pos S (visit pos n st))
    (fun l st => (∀ c ∈ l, ∀ m ∈ subnodes c, S m) → goodState pos S st →
      goodState pos S (visitChildren pos l st))
    ?_ ?_ ?_ ?_
  · intro st s e cs hc st' ih hS hst
    simp only [visit, if_pos hc]
    exact ih (fun c hcm m hm => hS m (mem_subnodes_of_child hcm hm))
      (goodState_update pos s e cs S hc (hS _ (self_mem_subnodes _)) st hst)
  · intro st s e cs hc hS hst
    simp only [visit, if_neg hc]
    exact hst
  · intro st hS hst
    simp only [visitChildren]
    exact hst
  · intro c cs st ih1 ih2 hS hst
    simp only [visitChildren]
    exact ih2 (fun c' hc' m hm => hS c' (List.mem_cons_of_mem c hc') m hm)
      (ih1 (hS c (List.mem_cons_self c cs)) hst)

/-- On a well-formed tree, the final best of `visit` is at least as
specific as every subnode containing the position. -/
theorem visit_dominates (pos : Nat) :
    (∀ (n : TsNode) (st : Option (TsNode × Nat × Nat)), wfNode n = true →
      ∀ m ∈ subnodes n, containsPos m pos →
      stateDom (visit pos n st) (nodeStart m) (nodeEnd m)) ∧
    (∀ (l : List TsNode) (st : Option (TsNode × Nat × Nat)), wfForest l = true →
      ∀ c ∈ l, ∀ m ∈ subnodes c, containsPos m pos →
      stateDom (visitChildren pos l st) (nodeStart m) (nodeEnd m)) := by
  refine visit.mutual_induct pos
    (fun n st => wfNode n = true → ∀ m ∈ subnodes n, containsPos m pos →
      stateDom (visit pos n st) (nodeStart m) (nodeEnd m))
    (fun l st => wfForest l = true → ∀ c ∈ l, ∀ m ∈ subnodes c, containsPos m pos →
      stateDom (visitChildren pos l st) (nodeStart m) (nodeEnd m))
    ?_ ?_ ?_ ?_
  · intro st s e cs hc st' ih hwf m hm hcp
    simp only [visit, if_pos hc]
    rcases wfNode_parts hwf with ⟨hse, hcw, hso, hwff⟩
    rcases mem_subnodes_node hm with rfl | hm'
    · exact stateDom_mono (stateDom_update s e cs st) ((visit_stateLe pos).2 cs _)
    · rcases mem_subnodesList.mp hm' with ⟨c, hcmem, hmc⟩
      exact ih hwff c hcmem m hmc hcp
  · intro st s e cs hc hwf m hm hcp
    exact absurd (containsPos_ancestor hwf hm hcp) hc
  · intro st hwf c hc
    exact absurd hc (List.not_mem_nil c)
  · intro c cs st ih1 ih2 hwf c' hc' m hm hcp
    simp only [visitChildren]
    simp only [wfForest, Bool.and_eq_true] at hwf
    rcases List.mem_cons.mp hc' with rfl | hc'
    · exact stateDom_mono (ih1 hwf.1 m hm hcp) ((visit_stateLe pos).2 cs _)
    · exact ih2 hwf.2 c' hc' m hm hcp

/-- If the node contains the position, `visit` returns a recorded best. -/
theorem visit_isSome_of_contains (pos : Nat) (n : TsNode)
    (st : Option (TsNode × Nat × Nat)) (hc : containsPos n pos) :
    (visit pos n st).isSome = true := by
  cases n with
  | node s e cs =>
    have hc' : s ≤ pos ∧ pos < e := hc
    simp only [visit, if_pos hc']
    rcases hst' : (match st with
      | none => some (TsNode.node s e cs, s, e)
      | some (r, bestStart, bestEnd) =>
        if s > bestStart ∨ (s = bestStart ∧ e < bestEnd) then
          some (TsNode.node s e cs, s, e)
        else some (r, bestStart, bestEnd)) with _ | ⟨⟨r, bs, be⟩⟩
    · exfalso
      rcases st with _ | ⟨⟨r0, bs0, be0⟩⟩
      · simp at hst'
      · by_cases hcond : s > bs0 ∨ (s = bs0 ∧ e < be0) <;> simp [hcond] at hst'
    · rw [hst']
      rcases (visit_stateLe pos).2 cs (some (r, bs, be)) r bs be rfl with
        ⟨r', bs', be', hres, _⟩
      rw [hres]
      rfl

/-- If the node does not contain the position, `visit` is the identity. -/
theorem visit_eq_of_not_contains (pos : Nat) (n : TsNode)
    (st : Option (TsNode × Nat × Nat)) (hc : ¬ containsPos n pos) :
    visit pos n st = st := by
  cases n with
  | node s e cs =>
    have hc' : ¬ (s ≤ pos ∧ pos < e) := hc
    simp only [visit, if_neg hc']

/-! ## C5: specification of `findMostSpecificNodeAtPosition` -/

/-- C5: on a well-formed parsed file, `findMostSpecificNodeAtPosition`
returns a node of the tree whose `[start, end)` range contains the offset
and which is tightest: no other containing node has a strictly larger start,
nor — at the same start — a strictly smaller end (i.e. among candidates
with the same start the smaller end is preferred); and it returns `none`
exactly when no node of the tree contains the offset (e.g. the offset is
past the end of file). -/
theorem findMostSpecificNodeAtPosition_spec (root : TsNode) (pos : Nat)
    (hwf : wfNode root = true) :
    (∀ n, findMostSpecificNodeAtPosition root pos = some n →
      containsPos n pos ∧ n ∈ subnodes root ∧
      ∀ m ∈ subnodes root, containsPos m pos →
        nodeStart m < nodeStart n ∨
          (nodeStart m = nodeStart n ∧ nodeEnd n ≤ nodeEnd m)) ∧
    (findMostSpecificNodeAtPosition root pos = none →
      ∀ m ∈ subnodes root, ¬ containsPos m pos) := by
  constructor
  · intro n hn
    unfold findMostSpecificNodeAtPosition at hn
    rcases hv : visit pos root none with _ | ⟨⟨r, bs, be⟩⟩
    · rw [hv] at hn
      simp at hn
    · rw [hv] at hn
      simp only [Option.map_some'] at hn
      have hrn : r = n := Option.some.inj hn
      subst hrn
      have hgood := (visit_goodState pos (· ∈ subnodes root)).1 root none
        (fun m hm => hm) (fun r' bs' be' h => absurd h (by simp))
      obtain ⟨hbs, hbe, hcontr, hmemr⟩ := hgood r bs be hv
      refine ⟨hcontr, hmemr, ?_⟩
      intro m hm hcm
      have hdom := (visit_dominates pos).1 root none hwf m hm hcm
      rcases hdom with ⟨r', bs', be', hst, hp⟩
      rw [hv] at hst
      have h' := Option.some.inj hst
      cases h'
      rw [hbs, hbe] at hp
      exact hp
  · intro hnone m hm hcm
    have hcroot : containsPos root pos := containsPos_ancestor hwf hm hcm
    have hsome := visit_isSome_of_contains pos root none hcroot
    unfold findMostSpecificNodeAtPosition at hnone
    rcases hv : visit pos root none with _ | x
    · rw [hv] at hsome
      simp at hsome
    · rw [hv] at hnone
      simp at hnone

/-- Witness for C5 at a concrete tree and offset: the resolver returns the
innermost leaf `[5, 6)`, which contains offset 5 and is a node of the
tree. -/
theorem findMostSpecificNodeAtPosition_spec_witness :
    containsPos sampleLeaf 5 ∧ sampleLeaf ∈ subnodes sampleTree := by
  have hwf : wfNode sampleTree = true := by
    simp [sampleTree, wfNode, wfForest, childrenWithin, siblingsOrdered,
      nodeStart, nodeEnd]
  have hres : findMostSpecificNodeAtPosition sampleTree 5 = some sampleLeaf := by
    simp [findMostSpecificNodeAtPosition, sampleTree, sampleLeaf, visit,
      visitChildren, nodeStart, nodeEnd]
  have h := (findMostSpecificNodeAtPosition_spec sampleTree 5 hwf).1 sampleLeaf hres
  exact ⟨h.1, h.2.1⟩

/-! ## C7: the two resolvers on a uniquely-contained leaf -/

/-- A node not containing the position resolves to nothing in the greedy
resolver. -/
theorem findNodeAtPosition_none (pos : Nat) (n : TsNode)
    (hc : ¬ containsPos n pos) : findNodeAtPosition pos n = none := by
  cases n with
  | node s e cs =>
    have hc' : ¬ (s ≤ pos ∧ pos < e) := hc
    simp only [findNodeAtPosition, if_neg hc']

/-- A node containing the position resolves to something in the greedy
resolver. -/
theorem findNodeAtPosition_isSome (pos : Nat) (n : TsNode)
    (hc : containsPos n pos) : (findNodeAtPosition pos n).isSome = true := by
  cases n with
  | node s e cs =>
    have hc' : s ≤ pos ∧ pos < e := hc
    simp only [findNodeAtPosition, if_pos hc']
    rcases hff : findFirstInChildren pos cs with _ | m <;> rfl

/-- If among ordered, well-formed siblings some child has the contained
leaf `L` in its subtree, and every child resolving to a node resolves to
`L` whenever `L` is under it, then the first-hit search returns `L`. -/
theorem findFirstInChildren_finds_leaf (pos : Nat) (L : TsNode)
    (hleaf : nodeChildren L = []) (hcont : containsPos L pos) :
    ∀ cs : List TsNode,
      (∀ c ∈ cs, wfNode c = true → L ∈ subnodes c →
        findNodeAtPosition pos c = some L) →
      wfForest cs = true → siblingsOrdered cs = true →
      ∀ c ∈ cs, L ∈ subnodes c → findFirstInChildren pos cs = some L := by
  intro cs
  induction cs with
  | nil => intro _ _ _ c hc; exact absurd hc (List.not_mem_nil c)
  | cons c0 rest ih =>
    intro hrec hwf hso c hc hL
    simp only [wfForest, Bool.and_eq_true] at hwf
    have hwc : wfNode c = true := by
      rcases List.mem_cons.mp hc with rfl | hcr
      · exact hwf.1
      · exact wfForest_mem hwf.2 hcr
    have hse : ∀ z ∈ c0 :: rest, nodeStart z ≤ nodeEnd z := by
      intro z hz
      rcases List.mem_cons.mp hz with rfl | hz
      · exact nodeStart_le_nodeEnd hwf.1
      · exact nodeStart_le_nodeEnd (wfForest_mem hwf.2 hz)
    have hcc : containsPos c pos := containsPos_ancestor hwc hL hcont
    by_cases hc0 : containsPos c0 pos
    · have heq : c0 = c :=
        siblings_unique pos (c0 :: rest) (by simpa using hso) hse
          c0 (by simp) c hc hc0 hcc
      have hfind : findNodeAtPosition pos c0 = some L := by
        rw [heq]
        exact hrec c hc hwc hL
      simp only [findFirstInChildren, hfind]
    · have hfind : findNodeAtPosition pos c0 = none :=
        findNodeAtPosition_none pos c0 hc0
      have hcrest : c ∈ rest := by
        rcases List.mem_cons.mp hc with rfl | h
        · exact absurd hcc hc0
        · exact h
      simp only [findFirstInChildren, hfind]
      exact ih (fun c' hc' => hrec c' (List.mem_cons_of_mem c0 hc'))
        hwf.2 (siblingsOrdered_tail hso) c hcrest hL

/-- On a well-formed tree, the greedy resolver returns any contained leaf
of the tree (such a leaf is necessarily unique). -/
theorem findNodeAtPosition_leaf (pos : Nat) :
    (∀ n : TsNode, wfNode n = true → ∀ L ∈ subnodes n, nodeChildren L = [] →
      containsPos L pos → findNodeAtPosition pos n = some L) ∧
    (∀ l : List TsNode, ∀ c ∈ l, wfNode c = true → ∀ L ∈ subnodes c,
      nodeChildren L = [] → containsPos L pos →
      findNodeAtPosition pos c = some L) := by
  refine subnodes.mutual_induct
    (fun n => wfNode n = true → ∀ L ∈ subnodes n, nodeChildren L = [] →
      containsPos L pos → findNodeAtPosition pos n = some L)
    (fun l => ∀ c ∈ l, wfNode c = true → ∀ L ∈ subnodes c, nodeChildren L = [] →
      containsPos L pos → findNodeAtPosition pos c = some L)
    ?_ ?_ ?_
  · intro s e cs ih hwf L hL hleaf hcont
    rcases wfNode_parts hwf with ⟨hse, hcw, hso, hwff⟩
    rcases mem_subnodes_node hL with rfl | hL'
    · have hcs : cs = [] := hleaf
      subst hcs
      have hc' : s ≤ pos ∧ pos < e := hcont
      simp only [findNodeAtPosition, if_pos hc', findFirstInChildren]
    · rcases mem_subnodesList.mp hL' with ⟨c, hcmem, hLc⟩
      have hwc := wfForest_mem hwff hcmem
      have hcc : containsPos c pos := containsPos_ancestor hwc hLc hcont
      have hb := childrenWithin_mem hcw hcmem
      have hcn : s ≤ pos ∧ pos < e := by
        rcases hcc with ⟨h1, h2⟩
        rcases hb with ⟨h3, h4⟩
        constructor <;> omega
      have hff : findFirstInChildren pos cs = some L :=
        findFirstInChildren_finds_leaf pos L hleaf hcont cs
          (fun c' hc' hwc' hL'' => ih c' hc' hwc' L hL'' hleaf hcont)
          hwff hso c hcmem hLc
      simp only [findNodeAtPosition, if_pos hcn, hff]
  · intro c hc
    exact absurd hc (List.not_mem_nil c)
  · intro c cs ih1 ih2 c' hc'
    rcases List.mem_cons.mp hc' with rfl | hc'
    · exact ih1
    · exact ih2 c' hc'

/-- C7, counterexample: in the parsed file `equalRangeTree` the offset 1
lies strictly inside exactly one leaf (`equalRangeLeaf`, the only leaf of
the tree), the tree is well-formed, and the greedy resolver returns that
leaf — but the rich tightest-node resolver returns the root, which has the
same `[0, 2)` range and is visited first, so the two resolvers do not
return the same node and the rich one does not return the leaf. -/
theorem resolvers_disagree_on_equal_range_leaf :
    wfNode equalRangeTree = true ∧
    equalRangeLeaf ∈ subnodes equalRangeTree ∧
    nodeChildren equalRangeLeaf = [] ∧
    containsPos equalRangeLeaf 1 ∧
    (∀ m ∈ subnodes equalRangeTree, nodeChildren m = [] → m = equalRangeLeaf) ∧
    findNodeAtPosition 1 equalRangeTree = some equalRangeLeaf ∧
    findMostSpecificNodeAtPosition equalRangeTree 1 = some equalRangeTree ∧
    equalRangeTree ≠ equalRangeLeaf := by
  refine ⟨?_, ?_, rfl, ?_, ?_, ?_, ?_, ?_⟩
  · simp [equalRangeTree, wfNode, wfForest, childrenWithin, siblingsOrdered,
      nodeStart, nodeEnd]
  · simp [equalRangeTree, equalRangeLeaf, subnodes, subnodesList]
  · exact ⟨by simp [equalRangeLeaf, nodeStart], by simp [equalRangeLeaf, nodeEnd]⟩
  · intro m hm hmc
    have hm' : m = equalRangeTree ∨ m = equalRangeLeaf := by
      simpa [equalRangeTree, equalRangeLeaf, subnodes, subnodesList] using hm
    rcases hm' with rfl | rfl
    · exact absurd hmc (by simp [equalRangeTree, equalRangeLeaf, nodeChildren])
    · rfl
  · simp [findNodeAtPosition, findFirstInChildren, equalRangeTree, equalRangeLeaf]
  · simp [findMostSpecificNodeAtPosition, visit, visitChildren, equalRangeTree,
      nodeStart, nodeEnd]
  · simp [equalRangeTree, equalRangeLeaf]

/-- C7 (amended): for every offset inside a leaf of an unchanged
well-formed parsed file, *provided no other containing node shares the
leaf's exact `[start, end)` range*, both resolver variants — the rich
tightest-node resolver and the greedy first-child resolver — return that
same leaf; being pure functions of the (tree, offset) pair, repeated calls
on the unchanged file return the same node, so each resolver is
idempotent. -/
theorem resolvers_agree_on_strictly_tight_leaf (root L : TsNode) (pos : Nat)
    (hwf : wfNode root = true) (hL : L ∈ subnodes root)
    (hleaf : nodeChildren L = []) (hcont : containsPos L pos)
    (hrange : ∀ m ∈ subnodes root, containsPos m pos → m ≠ L →
      (nodeStart m, nodeEnd m) ≠ (nodeStart L, nodeEnd L)) :
    findMostSpecificNodeAtPosition root pos = some L ∧
    findNodeAtPosition pos root = some L := by
  have hgreedy := (findNodeAtPosition_leaf pos).1 root hwf L hL hleaf hcont
  refine ⟨?_, hgreedy⟩
  have hcr : containsPos root pos := containsPos_ancestor hwf hL hcont
  have hsome := visit_isSome_of_contains pos root none hcr
  rcases hv : visit pos root none with _ | ⟨⟨r, bs, be⟩⟩
  · rw [hv] at hsome
    simp at hsome
  · have hgood := (visit_goodState pos (· ∈ subnodes root)).1 root none
      (fun m hm => hm) (fun r' bs' be' h => absurd h (by simp))
    obtain ⟨hbs, hbe, hcontr, hmemr⟩ := hgood r bs be hv
    have hdom := (visit_dominates pos).1 root none hwf L hL hcont
    rcases hdom with ⟨r', bs', be', hst, hp⟩
    rw [hv] at hst
    have h' := Option.some.inj hst
    cases h'
    rw [hbs, hbe] at hp
    have hcomp := (subnodes_comparable pos).1 root hwf r hmemr L hL hcontr hcont
    have hreq : r = L := by
      rcases hcomp with hrL | hLr
      · have hsubL : subnodes L = [L] := by
          cases L with
          | node ls le lcs =>
            have hcs : lcs = [] := hleaf
            subst hcs
            simp [subnodes, subnodesList]
        rw [hsubL] at hrL
        exact List.mem_singleton.mp hrL
      · have hwr : wfNode r = true := wf_subnodes.1 root hwf r hmemr
        have hbounds := subnodes_range.1 r hwr L hLr
        by_cases h : r = L
        · exact h
        · exfalso
          have hne := hrange r hmemr hcontr h
          have h1 : nodeStart r = nodeStart L := by omega
          have h2 : nodeEnd r = nodeEnd L := by omega
          exact hne (by rw [h1, h2])
    unfold findMostSpecificNodeAtPosition
    rw [hv]
    simp [hreq]

/-- Witness for the amended C7: on `sampleTree` at offset 5 — strictly
inside the single leaf `[5, 6)`, whose range no other containing node
shares — both resolvers return `sampleLeaf`. -/
theorem resolvers_agree_on_strictly_tight_leaf_witness :
    findMostSpecificNodeAtPosition sampleTree 5 = some sampleLeaf ∧
    findNodeAtPosition 5 sampleTree = some sampleLeaf := by
  refine resolvers_agree_on_strictly_tight_leaf sampleTree sampleLeaf 5 ?_ ?_ rfl ?_ ?_
  · simp [sampleTree, wfNode, wfForest, childrenWithin, siblingsOrdered,
      nodeStart, nodeEnd]
  · simp [sampleTree, sampleLeaf, subnodes, subnodesList]
  · exact ⟨by simp [sampleLeaf, nodeStart], by simp [sampleLeaf, nodeEnd]⟩
  · intro m hm hcm hne
    have hm' : m = sampleTree ∨ m = TsNode.node 0 3 [] ∨
        m = TsNode.node 4 6 [TsNode.node 5 6 []] ∨ m = sampleLeaf := by
      simpa [sampleTree, sampleLeaf, subnodes, subnodesList] using hm
    rcases hm' with rfl | rfl | rfl | rfl
    · simp [sampleTree, sampleLeaf, nodeStart]
    · exfalso
      rcases hcm with ⟨_, h2⟩
      have he : nodeEnd (TsNode.node 0 3 []) = 3 := rfl
      omega
    · simp [sampleLeaf, nodeStart]
    · exact absurd rfl hne
